import Mathlib

/-!
Verification of the rsdrav reactive TUI core against its specification.

Shallow embedding of the Rust sources:
* `theme.rs` — `Color`, `Modifier` bit set, `Style`;
* `render/buffer.rs` — `Cell`, `Buffer` (row-major flat storage);
* `render/diff.rs` — `line_hash` (FNV-1a over 64 bits), `find_changed_spans`,
  `merge_adjacent_regions`, `compute_diff`;
* `render/renderer.rs` — `Renderer::render` / `render_region`, modelled as a
  pure function emitting the list of backend operations;
* `layout/mod.rs` — `Rect` operations and `Length::resolve`;
* `layout/containers.rs` — `Row::layout`;
* `event_router.rs` — `EventRouter::route` with an explicit invocation trace;
* `focus.rs` — `FocusManager` with `register` / `focus_next`;
* `state/signal.rs` — subscriber list and `notify`;
* `state/store.rs` — type-erased store with `get_or_create` / `get`.

Machine integers (`u16`, `u64`, `u8`) are embedded as `Nat` with explicit
`% 2 ^ w` at the operations where the Rust code can wrap (`wrapping_mul`,
unchecked `+` in release mode); saturating operations are embedded with
`Nat` truncated subtraction and explicit `min`.
-/

namespace Rsdrav

/-- Modulus of the `u64` type. -/
def U64 : Nat := 2 ^ 64

/-- Modulus of the `u16` type. -/
def U16 : Nat := 2 ^ 16

/-- `u16` addition as compiled in release mode: wraps on overflow.
(`contains`, `intersect`, `union` in `layout/mod.rs` use unchecked `+`.) -/
def wadd16 (a b : Nat) : Nat := (a + b) % U16

/-- `u16` saturating addition (`saturating_add`). -/
def sadd16 (a b : Nat) : Nat := min (a + b) (U16 - 1)

/-- `u16` saturating multiplication (`saturating_mul`). -/
def smul16 (a b : Nat) : Nat := min (a * b) (U16 - 1)

/-- RGB color from `theme.rs`; each channel is a `u8` value. -/
structure Color where
  r : Nat
  g : Nat
  b : Nat
deriving DecidableEq, Repr

/-- Style from `theme.rs`: optional foreground, optional background and a
`Modifier` bit set (a `u8`), embedded as the raw bits. -/
structure Style where
  fg : Option Color
  bg : Option Color
  modifiers : Nat
deriving DecidableEq, Repr

/-- `Style::default()`: no colors, empty modifier set. -/
def Style.default : Style := ⟨none, none, 0⟩

/-- Terminal cell from `render/buffer.rs`: a character (embedded as its
Unicode scalar value) and a style. -/
structure Cell where
  ch : Nat
  style : Style
deriving DecidableEq, Repr

/-- `Cell::default()`: NUL character, default style. -/
def Cell.default : Cell := ⟨0, Style.default⟩

/-- `Buffer` from `render/buffer.rs`: width × height grid in row-major flat
storage `cells[y * width + x]`. -/
structure Buffer where
  width : Nat
  height : Nat
  cells : List Cell
deriving DecidableEq, Repr

/-- `Buffer::new(width, height)`: grid of default cells. -/
def Buffer.new (width height : Nat) : Buffer :=
  ⟨width, height, List.replicate (width * height) Cell.default⟩

/-- A buffer as produced by `Buffer::new`/`set`/`resize`/`clone` keeps
`cells.len() == width * height`. -/
def Buffer.wf (b : Buffer) : Prop := b.cells.length = b.width * b.height

/-- `Buffer::get`: `None` out of bounds, otherwise the cell at
`y * width + x`. -/
def Buffer.get (b : Buffer) (x y : Nat) : Option Cell :=
  if x ≥ b.width ∨ y ≥ b.height then none
  else b.cells.get? (y * b.width + x)

/-- `Buffer::set`: out-of-bounds writes are silently ignored. -/
def Buffer.set (b : Buffer) (x y : Nat) (cell : Cell) : Buffer :=
  if x < b.width ∧ y < b.height then
    { b with cells := b.cells.set (y * b.width + x) cell }
  else b

/-- `Buffer::line`: the `y`-th row as a slice (empty when `y` is out of
bounds; the in-range slice `cells[y*width .. (y+1)*width]`). -/
def Buffer.line (b : Buffer) (y : Nat) : List Cell :=
  if y ≥ b.height then []
  else (b.cells.drop (y * b.width)).take b.width

/-- `Rect` from `layout/mod.rs` (all fields are `u16` values). -/
structure Rect where
  x : Nat
  y : Nat
  width : Nat
  height : Nat
deriving DecidableEq, Repr

/-- `DirtyRegion` from `render/diff.rs`. -/
structure DirtyRegion where
  rect : Rect
deriving DecidableEq, Repr

/-- `DirtyRegion::full_screen`. -/
def DirtyRegion.full_screen (width height : Nat) : DirtyRegion :=
  ⟨⟨0, 0, width, height⟩⟩

/-- The FNV-1a 64-bit offset basis used in `line_hash`. -/
def fnvBasis : Nat := 0xcbf29ce484222325

/-- The FNV-1a 64-bit prime used in `line_hash`. -/
def fnvPrime : Nat := 0x100000001b3

/-- One FNV-1a step: `hash ^= v; hash = hash.wrapping_mul(PRIME)`. -/
def fnvStep (h v : Nat) : Nat := ((h ^^^ v) * fnvPrime) % U64

/-- The per-cell part of `line_hash`: character, then foreground r/g/b if
present, then background r/g/b if present, then the modifier bits. -/
def cellHash (h : Nat) (c : Cell) : Nat :=
  let h := fnvStep h c.ch
  let h := match c.style.fg with
    | some fg => fnvStep (fnvStep (fnvStep h fg.r) fg.g) fg.b
    | none => h
  let h := match c.style.bg with
    | some bg => fnvStep (fnvStep (fnvStep h bg.r) bg.g) bg.b
    | none => h
  fnvStep h c.style.modifiers

/-- `line_hash` from `render/diff.rs`: FNV-1a over the cells of a row. -/
def line_hash (line : List Cell) : Nat := line.foldl cellHash fnvBasis

/-- The scanning loop of `find_changed_spans`: walk `x` from left to right
over `width = min(old.len, new.len)` cells, tracking the start of the
current run of unequal cells; emit `Rect(start, y, x - start, 1)` when a run
closes, and close any open run at the end of the line. The `for x in
0..width` loop is embedded structurally over the list of remaining
positions. -/
def spansGo (old new : List Cell) (y width : Nat) :
    List Nat → Option Nat → List DirtyRegion → List DirtyRegion
  | [], some s, dirty => dirty ++ [⟨⟨s, y, width - s, 1⟩⟩]
  | [], none, dirty => dirty
  | x :: xs, start, dirty =>
    if old.get? x ≠ new.get? x then
      spansGo old new y width xs (some (start.getD x)) dirty
    else
      match start with
      | some s =>
        spansGo old new y width xs none (dirty ++ [⟨⟨s, y, x - s, 1⟩⟩])
      | none => spansGo old new y width xs none dirty

/-- `find_changed_spans` from `render/diff.rs`, appending to `dirty`. -/
def find_changed_spans (old new : List Cell) (y : Nat)
    (dirty : List DirtyRegion) : List DirtyRegion :=
  spansGo old new y (min old.length new.length)
    (List.range (min old.length new.length)) none dirty

/-- Sort key order used by `merge_adjacent_regions`:
`sort_by_key(|r| (r.rect.y, r.rect.x))`. -/
def regionLe : DirtyRegion → DirtyRegion → Prop := fun a b =>
  a.rect.y < b.rect.y ∨ (a.rect.y = b.rect.y ∧ a.rect.x ≤ b.rect.x)

/-- The merging walk of `merge_adjacent_regions`: on the same row, if
`next.x ≤ current.x + current.width + 1`, extend `current` to
`max(next.x + next.width, current.x + current.width)`; otherwise emit
`current` and continue from `next`. -/
def mergeGo (current : DirtyRegion) : List DirtyRegion → List DirtyRegion
  | [] => [current]
  | next :: rest =>
    if current.rect.y = next.rect.y ∧
        next.rect.x ≤ current.rect.x + current.rect.width + 1 then
      mergeGo ⟨⟨current.rect.x, current.rect.y,
        max (next.rect.x + next.rect.width)
          (current.rect.x + current.rect.width) - current.rect.x,
        current.rect.height⟩⟩ rest
    else current :: mergeGo next rest

instance : DecidableRel regionLe := fun a b => by
  unfold regionLe; infer_instance

/-- `merge_adjacent_regions` from `render/diff.rs`: with at most one region
return as-is; otherwise sort by `(y, x)` (std `sort_by_key` is a stable
sort, embedded as insertion sort) and run the merging walk. -/
def merge_adjacent_regions (dirty : List DirtyRegion) : List DirtyRegion :=
  if dirty.length ≤ 1 then dirty
  else
    match List.insertionSort regionLe dirty with
    | [] => []
    | c :: rest => mergeGo c rest

/-- `compute_diff` from `render/diff.rs`: full screen on dimension change;
otherwise skip rows with equal line hashes, scan the rest for changed spans,
and merge adjacent regions. -/
def compute_diff (old new : Buffer) : List DirtyRegion :=
  if old.width ≠ new.width ∨ old.height ≠ new.height then
    [DirtyRegion.full_screen new.width new.height]
  else
    merge_adjacent_regions <|
      (List.range new.height).foldl (fun dirty y =>
        if line_hash (old.line y) = line_hash (new.line y) then dirty
        else find_changed_spans (old.line y) (new.line y) y dirty) []

/-- Coverage predicate for the diff contract: region `r` covers cell
position `(x, y)` (exact arithmetic; the spec's notion of a region
containing a cell). -/
def coversPt (r : DirtyRegion) (x y : Nat) : Prop :=
  r.rect.x ≤ x ∧ x < r.rect.x + r.rect.width ∧
  r.rect.y ≤ y ∧ y < r.rect.y + r.rect.height

instance : ∀ r x y, Decidable (coversPt r x y) := fun r x y => by
  unfold coversPt; infer_instance

/-! ### Rect operations (`layout/mod.rs`)

`contains`, `intersect` and `union` use unchecked `+` on `u16` (wrapping in
release builds), embedded with `wadd16`; `inner`, `inner_margins`,
`split_h`, `split_v` use `saturating_add` / `saturating_sub` /
`saturating_mul`, embedded with `sadd16` / `Nat` truncated subtraction /
`smul16`. -/

/-- `Rect::contains`: `x >= self.x && x < self.x + self.width && y >= self.y
&& y < self.y + self.height` with unchecked `u16` addition. -/
def Rect.contains (r : Rect) (x y : Nat) : Prop :=
  r.x ≤ x ∧ x < wadd16 r.x r.width ∧ r.y ≤ y ∧ y < wadd16 r.y r.height

instance : ∀ r x y, Decidable (Rect.contains r x y) := fun r x y => by
  unfold Rect.contains; infer_instance

/-- `Rect::inner(margin)`: saturating inward inset on all sides. -/
def Rect.inner (r : Rect) (margin : Nat) : Rect :=
  let m2 := smul16 margin 2
  ⟨sadd16 r.x margin, sadd16 r.y margin, r.width - m2, r.height - m2⟩

/-- `Rect::inner_margins(top, right, bottom, left)`. -/
def Rect.inner_margins (r : Rect) (top right bottom left : Nat) : Rect :=
  ⟨sadd16 r.x left, sadd16 r.y top,
   r.width - sadd16 left right, r.height - sadd16 top bottom⟩

/-- `Rect::split_h(at)`: left gets `min at width`, right starts at the
saturating `x + at` with the remaining width. -/
def Rect.split_h (r : Rect) (at_ : Nat) : Rect × Rect :=
  (⟨r.x, r.y, min at_ r.width, r.height⟩,
   ⟨sadd16 r.x at_, r.y, r.width - at_, r.height⟩)

/-- `Rect::split_v(at)`. -/
def Rect.split_v (r : Rect) (at_ : Nat) : Rect × Rect :=
  (⟨r.x, r.y, r.width, min at_ r.height⟩,
   ⟨r.x, sadd16 r.y at_, r.width, r.height - at_⟩)

/-- `Rect::intersect`: right/bottom edges computed with unchecked `u16`
addition. -/
def Rect.intersect (r other : Rect) : Option Rect :=
  let x1 := max r.x other.x
  let y1 := max r.y other.y
  let x2 := min (wadd16 r.x r.width) (wadd16 other.x other.width)
  let y2 := min (wadd16 r.y r.height) (wadd16 other.y other.height)
  if x1 < x2 ∧ y1 < y2 then some ⟨x1, y1, x2 - x1, y2 - y1⟩ else none

/-- `Rect::union`: edges computed with unchecked `u16` addition. -/
def Rect.union (r other : Rect) : Rect :=
  let x1 := min r.x other.x
  let y1 := min r.y other.y
  let x2 := max (wadd16 r.x r.width) (wadd16 other.x other.width)
  let y2 := max (wadd16 r.y r.height) (wadd16 other.y other.height)
  ⟨x1, y1, x2 - x1, y2 - y1⟩

/-! ### Lengths and the Row container (`layout/mod.rs`, `containers.rs`) -/

/-- `Length` from `layout/mod.rs`. The source stores an `f32` in `Percent`;
it is embedded as an exact rational. No claim exercises `Percent`. -/
inductive Length where
  | Fixed (n : Nat)
  | Percent (p : Rat)
  | Fill (weight : Nat)
  | Min (n : Nat)
  | Max (n : Nat)
deriving DecidableEq, Repr

/-- `Length::resolve` from `layout/mod.rs`. `Fill` returns `available`
(callers handle `Fill` specially); `Min` and `Max` both resolve to
`min n available` in the source. The `Percent` arm models the source's
`((available as f32) * p).round() as u16` with exact rational rounding. -/
def Length.resolve (l : Length) (available : Nat) : Nat :=
  match l with
  | .Fixed n => n
  | .Percent p => (max 0 (round ((available : Rat) * p))).toNat
  | .Fill _ => available
  | .Min n => min n available
  | .Max n => min n available

/-- `Align` from `layout/mod.rs`. -/
inductive Align where
  | Start
  | Center
  | End
  | Stretch
deriving DecidableEq, Repr

/-- `Justify` from `layout/mod.rs`. -/
inductive Justify where
  | Start
  | Center
  | End
  | SpaceBetween
  | SpaceAround
  | SpaceEvenly
deriving DecidableEq, Repr

/-- `Row` container from `layout/containers.rs`. -/
structure Row where
  gap : Nat
  align : Align
  justify : Justify
deriving Repr

/-- `Row::new()`. -/
def Row.new : Row := ⟨0, Align.Stretch, Justify.Start⟩

/-- The fill share of phase 2 of `Row::layout`:
`((remaining as f32) * (weight as f32) / (total as f32)) as u16`.
The `as u16` cast truncates toward zero; for the operand magnitudes in the
claims below the `f32` computation is exact enough that the truncated
quotient equals integer floor division, which is how it is embedded. -/
def fillShare (remaining weight total : Nat) : Nat := remaining * weight / total

/-- `Row::layout` from `layout/containers.rs`: subtract the total gap, then
phase 1 resolves non-`Fill` lengths against `available` (tracking the
saturating `remaining` and the saturating total fill weight), phase 2
assigns each `Fill(w)` its share of `remaining`, phase 3 places the rects
left to right from the justify offset. -/
def Row.layout (row : Row) (area : Rect) (child_widths : List Length) :
    List Rect :=
  if child_widths.isEmpty then []
  else
    let n := child_widths.length
    let total_gap := smul16 row.gap (n - 1)
    let available := area.width - total_gap
    let total_fill_weight := child_widths.foldl (fun acc w =>
      match w with
      | .Fill weight => sadd16 acc weight
      | _ => acc) 0
    let remaining := child_widths.foldl (fun rem w =>
      match w with
      | .Fill _ => rem
      | _ => rem - Length.resolve w available) available
    let sizes := child_widths.map (fun w =>
      match w with
      | .Fill weight =>
        if total_fill_weight > 0 then fillShare remaining weight total_fill_weight
        else 0
      | _ => Length.resolve w available)
    let total_size := sizes.foldl wadd16 0
    let total_with_gaps := sadd16 total_size total_gap
    let x0 := match row.justify with
      | .Start => area.x
      | .End => sadd16 area.x (area.width - total_with_gaps)
      | .Center => sadd16 area.x ((area.width - total_with_gaps) / 2)
      | .SpaceBetween | .SpaceAround | .SpaceEvenly => area.x
    let y := match row.align with
      | .Start => area.y
      | .End => sadd16 area.y (area.height - area.height)
      | .Center => sadd16 area.y (area.height / 2) - area.height / 2
      | .Stretch => area.y
    (sizes.foldl (fun (acc : List Rect × Nat) width =>
      (acc.1 ++ [⟨acc.2, y, width, area.height⟩],
       sadd16 (sadd16 acc.2 width) row.gap)) ([], x0)).1

/-! ### Renderer (`render/renderer.rs`)

The byte-level ANSI formatting of `write_style_codes` /
`write_reset_codes` is abstracted to tokens; the backend is modelled as the
list of operations the renderer issues, in order. -/

/-- Tokens of the per-row output vector built by `render_region`. -/
inductive OutItem where
  | styleCodes (s : Style)
  | ch (c : Nat)
  | reset
deriving DecidableEq, Repr

/-- Operations issued to the backend by the renderer. -/
inductive BackendOp where
  | cursorGoto (x y : Nat)
  | write (output : List OutItem)
  | flush
deriving DecidableEq, Repr

/-- The coordinates `render_region` passes to `Buffer::get`: rows
`rect.y ..< min (rect.y + rect.height) height` and columns
`rect.x ..< min (rect.x + rect.width) width`, both upper bounds computed
with unchecked `u16` addition. -/
def regionReads (buffer : Buffer) (region : DirtyRegion) : List (Nat × Nat) :=
  let rect := region.rect
  let yEnd := min (wadd16 rect.y rect.height) buffer.height
  let xEnd := min (wadd16 rect.x rect.width) buffer.width
  ((List.range' rect.y (yEnd - rect.y)).map (fun y =>
    (List.range' rect.x (xEnd - rect.x)).map (fun x => (x, y)))).flatten

/-- The inner cell walk of `render_region` for one row: apply the style
when it changes, then write the character; cells are read through
`Buffer::get` and skipped when it returns `None`. -/
def renderRowGo (buffer : Buffer) (y : Nat) :
    List Nat → Option Style → List OutItem → List OutItem × Option Style
  | [], current_style, output => (output, current_style)
  | x :: xs, current_style, output =>
    match buffer.get x y with
    | some cell =>
      if current_style ≠ some cell.style then
        renderRowGo buffer y xs (some cell.style)
          (output ++ [OutItem.styleCodes cell.style, OutItem.ch cell.ch])
      else
        renderRowGo buffer y xs current_style (output ++ [OutItem.ch cell.ch])
    | none => renderRowGo buffer y xs current_style output

/-- `Renderer::render_region`: per row, a cursor move to the region's left
edge, the styled cell walk, and a trailing reset when any style was
emitted. -/
def renderRegion (buffer : Buffer) (region : DirtyRegion) : List BackendOp :=
  let rect := region.rect
  let yEnd := min (wadd16 rect.y rect.height) buffer.height
  let xEnd := min (wadd16 rect.x rect.width) buffer.width
  (List.range' rect.y (yEnd - rect.y)).foldl (fun ops y =>
    let xs := List.range' rect.x (xEnd - rect.x)
    let (output, current_style) := renderRowGo buffer y xs none []
    let output := if current_style.isSome then output ++ [OutItem.reset]
      else output
    ops ++ [BackendOp.cursorGoto rect.x y, BackendOp.write output]) []

/-- Renderer state from `render/renderer.rs`. -/
structure Renderer where
  first_render : Bool
deriving DecidableEq, Repr

/-- `Renderer::render`: full-screen region on first render or missing
previous buffer, otherwise `compute_diff`; early return without a flush
when the region list is empty; otherwise render every region and flush
once. Returns the backend operations and the new renderer state. -/
def Renderer.render (r : Renderer) (prev : Option Buffer) (buffer : Buffer) :
    List BackendOp × Renderer :=
  let (dirty_regions, r') :=
    match r.first_render, prev with
    | true, _ =>
      ([DirtyRegion.full_screen buffer.width buffer.height], Renderer.mk false)
    | false, none =>
      ([DirtyRegion.full_screen buffer.width buffer.height], Renderer.mk false)
    | false, some p => (compute_diff p buffer, r)
  if dirty_regions.isEmpty then ([], r')
  else
    (dirty_regions.foldl (fun ops region => ops ++ renderRegion buffer region)
       [] ++ [BackendOp.flush], r')

/-- Number of `flush` operations in a backend trace. -/
def countFlush (ops : List BackendOp) : Nat :=
  ops.countP (fun op => op = BackendOp.flush)

/-! ### Event routing (`event_router.rs`, `event.rs`) -/

/-- `KeyCode` from `event.rs` (characters embedded as scalar values). -/
inductive KeyCode where
  | Char (c : Nat)
  | Backspace
  | Enter
  | Left
  | Right
  | Up
  | Down
  | Home
  | End
  | PageUp
  | PageDown
  | Tab
  | BackTab
  | Delete
  | Insert
  | F (n : Nat)
  | Esc
  | Null
deriving DecidableEq, Repr

/-- `Event` from `event.rs` (key modifiers and mouse kinds embedded as raw
bits/tags; the router treats events opaquely). -/
inductive Event where
  | Key (code : KeyCode) (modifiers : Nat)
  | Mouse (kind : Nat) (x y : Nat) (modifiers : Nat)
  | Resize (w h : Nat)
  | FocusGained
  | FocusLost
  | Paste (s : String)
deriving DecidableEq, Repr

/-- `EventResult` from `event.rs`. -/
inductive EventResult where
  | Handled
  | Ignored
  | Consumed
deriving DecidableEq, Repr

/-- `EventPhase` from `event_router.rs`. -/
inductive EventPhase where
  | Capture
  | Target
  | Bubble
deriving DecidableEq, Repr

/-- `EventRoutingContext` from `event_router.rs`. -/
structure EventRoutingContext where
  phase : EventPhase
  stopped : Bool
  prevented : Bool
deriving DecidableEq, Repr

/-- `EventHandler` from `event_router.rs`: a phase tag and the boxed
closure, embedded as a pure function on the routing context. -/
structure EventHandler where
  phase : EventPhase
  run : Event → EventRoutingContext → EventResult × EventRoutingContext

/-- Component ids of the router (`type ComponentId = usize`). -/
abbrev RouterId := Nat

/-- `EventRouter` state: the child → parent map and the per-component
handler lists, embedded as association lists (`HashMap` lookups become
first-match lookups). -/
structure EventRouter where
  hierarchy : List (RouterId × RouterId)
  handlers : List (RouterId × List EventHandler)
  next_id : RouterId

/-- `hierarchy.get(&child)`. -/
def EventRouter.parentOf (router : EventRouter) (child : RouterId) :
    Option RouterId :=
  (router.hierarchy.find? (fun p => p.1 = child)).map (·.2)

/-- `handlers.get(&component)`, defaulting to no handlers. -/
def EventRouter.handlersOf (router : EventRouter) (component : RouterId) :
    List EventHandler :=
  ((router.handlers.find? (fun p => p.1 = component)).map (·.2)).getD []

/-- The parent walk of `route` building `[target, parent, …, root]`. The
source loops `while let Some(parent)`; on any router whose parent edges were
created by `register` (each child points to an earlier id) the walk stops
within `hierarchy.length` steps, which is used as fuel. -/
def buildPathGo (router : EventRouter) (current : RouterId)
    (acc : List RouterId) : Nat → List RouterId
  | 0 => acc
  | fuel + 1 =>
    match router.parentOf current with
    | some p => buildPathGo router p (acc ++ [p]) fuel
    | none => acc

/-- The `path` of `route` after `path.reverse()`: root first, target last. -/
def EventRouter.path (router : EventRouter) (target : RouterId) :
    List RouterId :=
  (buildPathGo router target [target] router.hierarchy.length).reverse

/-- A recorded handler-closure invocation: which component's handler ran,
in which phase. -/
abbrev Invocation := RouterId × EventPhase

/-- The inner handler loop of `route` for one component: each handler is
offered the event (`EventHandler::handle` runs the closure only when the
handler's phase equals the context's phase); a `Consumed` result stops
propagation and breaks. Returns the context and the invocation trace. -/
def routeHandlers (hs : List EventHandler) (cid : RouterId) (event : Event)
    (ctx : EventRoutingContext) (trace : List Invocation) :
    EventRoutingContext × List Invocation :=
  match hs with
  | [] => (ctx, trace)
  | h :: rest =>
    if h.phase = ctx.phase then
      let (result, ctx') := h.run event ctx
      let trace' := trace ++ [(cid, ctx.phase)]
      if result = EventResult.Consumed then
        ({ ctx' with stopped := true }, trace')
      else routeHandlers rest cid event ctx' trace'
    else
      routeHandlers rest cid event ctx trace

/-- One phase loop of `route` over a component sequence, breaking when
`should_continue` fails. -/
def routePhase (router : EventRouter) (comps : List RouterId) (event : Event)
    (ctx : EventRoutingContext) (trace : List Invocation) :
    EventRoutingContext × List Invocation :=
  match comps with
  | [] => (ctx, trace)
  | c :: rest =>
    if ctx.stopped then (ctx, trace)
    else
      let (ctx', trace') :=
        routeHandlers (router.handlersOf c) c event ctx trace
      routePhase router rest event ctx' trace'

/-- `EventRouter::route`: capture walk over `path.iter().rev().skip(1)`,
target phase over the target's handlers, bubble walk over
`path.iter().skip(1)`, final result from the `stopped` / `prevented`
flags. Returns the result and the closure-invocation trace. -/
def EventRouter.route (router : EventRouter) (event : Event)
    (target : RouterId) : EventResult × List Invocation :=
  let path := router.path target
  let ctx0 : EventRoutingContext := ⟨EventPhase.Capture, false, false⟩
  let (ctx1, tr1) :=
    routePhase router (path.reverse.drop 1) event
      { ctx0 with phase := EventPhase.Capture } []
  let (ctx2, tr2) :=
    if ¬ctx1.stopped then
      routeHandlers (router.handlersOf target) target event
        { ctx1 with phase := EventPhase.Target } tr1
    else (ctx1, tr1)
  let (ctx3, tr3) :=
    if ¬ctx2.stopped then
      routePhase router (path.drop 1) event
        { ctx2 with phase := EventPhase.Bubble } tr2
    else (ctx2, tr2)
  (if ctx3.stopped then EventResult.Consumed
   else if ctx3.prevented then EventResult.Handled
   else EventResult.Ignored, tr3)

/-! ### Focus manager (`focus.rs`) -/

/-- `FocusableComponent` from `focus.rs`. -/
structure FocusableComponent where
  id : Nat
  order : Nat
  focusable : Bool
deriving DecidableEq, Repr

/-- `FocusManager` state. -/
structure FocusManager where
  components : List FocusableComponent
  current : Option Nat
  next_id : Nat
deriving DecidableEq, Repr

/-- `FocusManager::new()`. -/
def FocusManager.new : FocusManager := ⟨[], none, 1⟩

/-- Ordering used by `register`'s `sort_by_key(|c| c.order)`. -/
def focusOrderLe : FocusableComponent → FocusableComponent → Prop :=
  fun a b => a.order ≤ b.order

instance : DecidableRel focusOrderLe := fun a b => by
  unfold focusOrderLe; infer_instance

/-- `FocusManager::register`: drop any entry with the same id, append the
new entry, stable-sort by tab order (std `sort_by_key`, embedded as
insertion sort), and auto-focus when nothing is focused and the entry is
focusable. -/
def FocusManager.register (m : FocusManager) (id order : Nat)
    (focusable : Bool) : FocusManager :=
  let comps := (m.components.filter (fun c => c.id ≠ id)) ++
    [⟨id, order, focusable⟩]
  { m with
    components := List.insertionSort focusOrderLe comps
    current := if m.current = none ∧ focusable then some id else m.current }

/-- The wrapping forward search of `focus_next`: offsets `0 ..< len`,
position `(start + offset) % len`, first focusable entry wins. The `for
offset in 0..len` loop is embedded structurally over the list of remaining
offsets. -/
def searchNext (comps : List FocusableComponent) (start : Nat) :
    List Nat → Option FocusableComponent
  | [] => none
  | offset :: rest =>
    match comps.get? ((start + offset) % comps.length) with
    | some c =>
      if c.focusable then some c else searchNext comps start rest
    | none => none

/-- `FocusManager::focus_next`: resolve the current position with
`position(|c| c.id == current_id)`, start one past it (or at 0), and run
the wrapping search. -/
def FocusManager.focus_next (m : FocusManager) : Bool × FocusManager :=
  if m.components.isEmpty then (false, m)
  else
    let current_idx := m.current.bind (fun cid =>
      m.components.findIdx? (fun c => c.id = cid))
    let start_idx := match current_idx with
      | some i => i + 1
      | none => 0
    match searchNext m.components start_idx (List.range m.components.length)
      with
    | some c => (true, { m with current := some c.id })
    | none => (false, m)

/-- The state after `focus_next` (discarding the returned flag). -/
def focusNextState (m : FocusManager) : FocusManager := m.focus_next.2

/-! ### Signals (`state/signal.rs`)

A subscriber entry is `(SubscriberId, Weak<callback>)`; the weak reference
upgrades exactly while the caller still holds the `Subscription` handle, so
an entry is embedded as its id together with an `alive` flag. `notify`'s
`retain` walk is embedded returning the retained list and the trace of
invoked subscriber ids, in walk order. -/

/-- Signal state: value, `u64` version counter and the subscriber list. -/
structure SignalState (T : Type) where
  value : T
  version : Nat
  subscribers : List (Nat × Bool)
  next_sub_id : Nat

/-- `Signal::new(initial)`. -/
def SignalState.new {T : Type} (initial : T) : SignalState T :=
  ⟨initial, 0, [], 0⟩

/-- The `retain` walk of `Signal::notify`: in list order, upgrade each weak
reference; on success invoke the callback and keep the entry, otherwise
drop it. Returns the retained list and the invoked ids. -/
def notifyGo : List (Nat × Bool) → List (Nat × Bool) × List Nat
  | [] => ([], [])
  | (id, alive) :: rest =>
    let (kept, invoked) := notifyGo rest
    if alive then ((id, alive) :: kept, id :: invoked)
    else (kept, invoked)

/-- `Signal::set`: write the value, bump the `u64` version, notify.
Returns the new state and the invocation trace. -/
def SignalState.set {T : Type} (s : SignalState T) (new_val : T) :
    SignalState T × List Nat :=
  let (kept, invoked) := notifyGo s.subscribers
  (⟨new_val, (s.version + 1) % U64, kept, s.next_sub_id⟩, invoked)

/-- `Signal::update(f)`: apply `f` in place, bump the version, notify. -/
def SignalState.update {T : Type} (s : SignalState T) (f : T → T) :
    SignalState T × List Nat :=
  let (kept, invoked) := notifyGo s.subscribers
  (⟨f s.value, (s.version + 1) % U64, kept, s.next_sub_id⟩, invoked)

/-- `Signal::subscribe`: push `(next_sub_id, weak)` (alive, since the
returned `Subscription` holds the strong reference) and bump the id
counter. Returns the new state and the subscription's id. -/
def SignalState.subscribe {T : Type} (s : SignalState T) :
    SignalState T × Nat :=
  ({ s with
      subscribers := s.subscribers ++ [(s.next_sub_id, true)]
      next_sub_id := s.next_sub_id + 1 }, s.next_sub_id)

/-- Dropping a `Subscription`: the strong reference goes away, so the weak
back-reference with that id stops upgrading. -/
def SignalState.dropSub {T : Type} (s : SignalState T) (id : Nat) :
    SignalState T :=
  { s with subscribers := s.subscribers.map (fun p =>
      if p.1 = id then (p.1, false) else p) }

/-! ### Store (`state/store.rs`)

The store's value side is `Arc<dyn Any>` with downcasting; the embedding is
parametric over a type-id universe `TypeId` with an interpretation `I`, an
entry being the key together with the signal's element type id and current
value. `downcast_ref::<Signal<T>>` succeeds exactly when the stored type id
equals the requested one. -/

/-- `HashMap::get(key)` over the association-list embedding. -/
def storeLookup {TypeId : Type} {I : TypeId → Type}
    (m : List (String × Sigma I)) (key : String) : Option (Sigma I) :=
  (m.find? (fun e => e.1 = key)).map (·.2)

/-- `downcast_ref::<Signal<T>>()`: succeeds iff the stored type id is `t`. -/
def downcastSig {TypeId : Type} [DecidableEq TypeId] {I : TypeId → Type}
    (e : Sigma I) (t : TypeId) : Option (I t) :=
  if h : e.1 = t then some (h ▸ e.2) else none

/-- `Store::get_or_create`: return the existing signal on a type match,
panic (embedded as `Except.error` carrying the panic message) on a
mismatch, insert a fresh signal with the default value when absent. -/
def Store.get_or_create {TypeId : Type} [DecidableEq TypeId]
    {I : TypeId → Type} (m : List (String × Sigma I)) (key : String)
    (t : TypeId) (default_val : I t) :
    Except String (I t × List (String × Sigma I)) :=
  match storeLookup m key with
  | some e =>
    match downcastSig e t with
    | some sig => Except.ok (sig, m)
    | none =>
      Except.error ("Store key '" ++ key ++ "' exists but has wrong type")
  | none => Except.ok (default_val, m ++ [(key, ⟨t, default_val⟩)])

/-- `Store::get`: `None` when absent or when the downcast fails; the store
is read through a shared read lock and never modified. -/
def Store.get {TypeId : Type} [DecidableEq TypeId] {I : TypeId → Type}
    (m : List (String × Sigma I)) (key : String) (t : TypeId) :
    Option (I t) :=
  (storeLookup m key).bind (fun e => downcastSig e t)

/-! ### Spec-side comparison definitions

These follow the specification's words (not the source) and exist only to
be compared with the source-derived definitions above. -/

/-- Modelled from the spec: `contains` with arithmetic that "saturates at
the bounds of the coordinate type". -/
def Rect.containsSat (r : Rect) (x y : Nat) : Prop :=
  r.x ≤ x ∧ x < sadd16 r.x r.width ∧ r.y ≤ y ∧ y < sadd16 r.y r.height

instance : ∀ r x y, Decidable (Rect.containsSat r x y) := fun r x y => by
  unfold Rect.containsSat; infer_instance

/-- `intersect` with exact (non-wrapping) edge arithmetic, for comparison
with the source's unchecked `u16` addition. -/
def Rect.intersectExact (r other : Rect) : Option Rect :=
  let x1 := max r.x other.x
  let y1 := max r.y other.y
  let x2 := min (r.x + r.width) (other.x + other.width)
  let y2 := min (r.y + r.height) (other.y + other.height)
  if x1 < x2 ∧ y1 < y2 then some ⟨x1, y1, x2 - x1, y2 - y1⟩ else none

/-- `union` with exact (non-wrapping) edge arithmetic, for comparison with
the source's unchecked `u16` addition. -/
def Rect.unionExact (r other : Rect) : Rect :=
  let x1 := min r.x other.x
  let y1 := min r.y other.y
  let x2 := max (r.x + r.width) (other.x + other.width)
  let y2 := max (r.y + r.height) (other.y + other.height)
  ⟨x1, y1, x2 - x1, y2 - y1⟩

/-! ### Concrete fixtures used by counterexamples and witnesses -/

/-- A 4-cell row of default-styled characters. -/
def lineA : List Cell :=
  [⟨0x1bbe1, Style.default⟩, ⟨0x13cd6, Style.default⟩,
   ⟨0x1cbf7, Style.default⟩, ⟨0x10e0e, Style.default⟩]

/-- A second 4-cell row, differing from `lineA` in every cell but with the
same FNV-1a line hash (a genuine 64-bit collision of `line_hash`). -/
def lineB : List Cell :=
  [⟨0x1b134, Style.default⟩, ⟨0x1825e, Style.default⟩,
   ⟨0x1f393, Style.default⟩, ⟨0x1cfff, Style.default⟩]

/-- 4×1 buffer holding `lineA`. -/
def bufA : Buffer := ⟨4, 1, lineA⟩

/-- 4×1 buffer holding `lineB`. -/
def bufB : Buffer := ⟨4, 1, lineB⟩

/-- A handler that touches nothing: returns `Ignored`, leaves the context
alone. -/
def noopH (ph : EventPhase) : EventHandler :=
  ⟨ph, fun _ ctx => (EventResult.Ignored, ctx)⟩

/-- A three-node chain 1 → 2 → 3 (root, middle, target) with capture and
bubble handlers on every node and a target handler on the target, as built
by `register(None)`, `register(Some(1))`, `register(Some(2))` and
`add_handler`. -/
def router3 : EventRouter :=
  { hierarchy := [(2, 1), (3, 2)]
    handlers := [(1, [noopH EventPhase.Capture, noopH EventPhase.Bubble]),
                 (2, [noopH EventPhase.Capture, noopH EventPhase.Bubble]),
                 (3, [noopH EventPhase.Target, noopH EventPhase.Bubble])]
    next_id := 4 }

/-- A focus manager reached through the public API: `register(1, 0, true)`,
`register(2, 1, true)`, then `register(1, 0, false)`. The focus is still on
id 1, whose entry is no longer focusable; the focusable set is `{2}`. -/
def fmStale : FocusManager :=
  ((FocusManager.new.register 1 0 true).register 2 1 true).register 1 0 false

/-- A focus manager with three focusable entries in tab order, focus on the
first. -/
def fmThree : FocusManager :=
  ((FocusManager.new.register 1 0 true).register 2 1 true).register 3 2 true

/-- Whether the component at position `i` of the registry is focusable
(false out of range) — the condition `focus_next`'s wrapping search tests
at each probed position. -/
def focAt (comps : List FocusableComponent) (i : Nat) : Bool :=
  match comps.get? i with
  | some c => c.focusable
  | none => false

/-- The positions of the focusable entries of the registry, in increasing
order. -/
def focPositions (comps : List FocusableComponent) : List Nat :=
  (List.range comps.length).filter (focAt comps)

/-! ## Theorems -/

/-- C2: routing an event through the chain 1 → 2 → 3 invokes the capture
handlers in target-to-root order (middle before root) and the bubble
handlers on the wrong node set (the target included, the root skipped),
contradicting both the spec and the code's own comments ("Capture phase -
from root to target (excluding target)", "Bubble phase - from target back
to root (excluding target)"): the trace is (2,Capture), (1,Capture),
(3,Target), (2,Bubble), (3,Bubble) instead of (1,Capture), (2,Capture),
(3,Target), (2,Bubble), (1,Bubble). -/
theorem C2_route_order_diverges :
    (router3.route Event.FocusGained 3).2 =
      [(2, EventPhase.Capture), (1, EventPhase.Capture),
       (3, EventPhase.Target),
       (2, EventPhase.Bubble), (3, EventPhase.Bubble)] ∧
    (router3.route Event.FocusGained 3).2 ≠
      [(1, EventPhase.Capture), (2, EventPhase.Capture),
       (3, EventPhase.Target),
       (2, EventPhase.Bubble), (1, EventPhase.Bubble)] := by
  constructor <;> decide

/-- C3 counterexample: on `Rect(0,0,100,20)` with `[Fixed(30), Fill(1),
Fill(2)]` and gap 0, `Row::layout` produces widths `[30, 23, 46]`, which is
neither `[30, 23, 47]` nor `[30, 24, 46]` as the claim states: each `Fill`
share is floored independently, so `floor(70/3) = 23` and
`floor(140/3) = 46`. -/
theorem C3_widths_match_neither_claimed :
    ((Row.layout Row.new ⟨0, 0, 100, 20⟩
        [Length.Fixed 30, Length.Fill 1, Length.Fill 2]).map Rect.width
      = [30, 23, 46]) ∧
    ([30, 23, 46] : List Nat) ≠ [30, 23, 47] ∧
    ([30, 23, 46] : List Nat) ≠ [30, 24, 46] := by
  refine ⟨by decide, by decide, by decide⟩

/-- C3 (amended): on `Rect(0,0,100,20)` with `[Fixed(30), Fill(1),
Fill(2)]` and gap 0, `Row::layout` returns the three rectangles
`(0,0,30,20)`, `(30,0,23,20)`, `(53,0,46,20)` — widths `[30, 23, 46]`,
each `Fill(w)` share being `floor(remaining·w / total_weight)` — with
total width `99 ≤ 100`. -/
theorem C3_row_layout_s3 :
    Row.layout Row.new ⟨0, 0, 100, 20⟩
        [Length.Fixed 30, Length.Fill 1, Length.Fill 2]
      = [⟨0, 0, 30, 20⟩, ⟨30, 0, 23, 20⟩, ⟨53, 0, 46, 20⟩] ∧
    30 + 23 + 46 ≤ 100 := by
  refine ⟨by decide, by decide⟩

/-- C4 counterexample: `Rect::contains`, `intersect` and `union` do not
saturate — they use unchecked `u16` addition, which wraps in release
builds. For `Rect(65534, 0, 2, 1)` the sum `x + width = 65536` wraps to 0:
the rect fails to contain its own first column `(65534, 0)` although the
saturating reading of the spec contains it, and its union with
`Rect(0,0,1,1)` collapses to `Rect(0,0,1,1)`, which does not enclose it. -/
theorem C4_contains_overflow_wraps :
    ¬ Rect.contains ⟨65534, 0, 2, 1⟩ 65534 0 ∧
    Rect.containsSat ⟨65534, 0, 2, 1⟩ 65534 0 ∧
    Rect.union ⟨65534, 0, 2, 1⟩ ⟨0, 0, 1, 1⟩ = ⟨0, 0, 1, 1⟩ := by
  refine ⟨by decide, by decide, by decide⟩

/-- C4 (amended): `inner` and the splits saturate at the `u16` bounds for
all in-range inputs (fields stay below 2^16); `contains`, `intersect` and
`union` use unchecked addition and therefore agree with exact arithmetic
exactly when `x + width` and `y + height` stay below 2^16; beyond that
they wrap (see the counterexample). -/
theorem C4_rect_arith_amended :
    (∀ (r : Rect) (margin : Nat), r.x < U16 → r.y < U16 →
      (r.inner margin).x < U16 ∧ (r.inner margin).y < U16 ∧
      (r.inner margin).width ≤ r.width ∧
      (r.inner margin).height ≤ r.height) ∧
    (∀ (r : Rect) (at_ : Nat), r.x < U16 → r.y < U16 → r.width < U16 →
      r.height < U16 →
      ((r.split_h at_).1.x < U16 ∧ (r.split_h at_).1.width ≤ r.width ∧
       (r.split_h at_).2.x < U16 ∧ (r.split_h at_).2.width ≤ r.width ∧
       (r.split_v at_).1.y < U16 ∧ (r.split_v at_).1.height ≤ r.height ∧
       (r.split_v at_).2.y < U16 ∧ (r.split_v at_).2.height ≤ r.height)) ∧
    (∀ (r : Rect) (x y : Nat), r.x + r.width < U16 → r.y + r.height < U16 →
      (Rect.contains r x y ↔
        (r.x ≤ x ∧ x < r.x + r.width ∧ r.y ≤ y ∧ y < r.y + r.height))) ∧
    (∀ r other : Rect, r.x + r.width < U16 → r.y + r.height < U16 →
      other.x + other.width < U16 → other.y + other.height < U16 →
      r.intersect other = r.intersectExact other ∧
      r.union other = r.unionExact other) := by
  refine ⟨?_, ?_, ?_, ?_⟩
  · intro r margin hx hy
    refine ⟨?_, ?_, ?_, ?_⟩ <;>
      simp only [Rect.inner, sadd16, smul16, U16] at * <;> omega
  · intro r at_ hx hy hw hh
    refine ⟨?_, ?_, ?_, ?_, ?_, ?_, ?_, ?_⟩ <;>
      simp only [Rect.split_h, Rect.split_v, sadd16, U16] at * <;> omega
  · intro r x y hxw hyh
    have h1 : wadd16 r.x r.width = r.x + r.width := Nat.mod_eq_of_lt hxw
    have h2 : wadd16 r.y r.height = r.y + r.height := Nat.mod_eq_of_lt hyh
    simp only [Rect.contains, h1, h2]
  · intro r other h1 h2 h3 h4
    constructor
    · simp only [Rect.intersect, Rect.intersectExact, wadd16,
        Nat.mod_eq_of_lt h1, Nat.mod_eq_of_lt h2, Nat.mod_eq_of_lt h3,
        Nat.mod_eq_of_lt h4]
    · simp only [Rect.union, Rect.unionExact, wadd16,
        Nat.mod_eq_of_lt h1, Nat.mod_eq_of_lt h2, Nat.mod_eq_of_lt h3,
        Nat.mod_eq_of_lt h4]

/-- C4 amended witness: the amended theorem applied at concrete values. -/
theorem C4_rect_arith_amended_witness :
    ((⟨0, 0, 20, 20⟩ : Rect).inner 5).x < U16 ∧
    (Rect.contains ⟨10, 10, 20, 20⟩ 29 29 ↔
      (10 ≤ 29 ∧ 29 < 30 ∧ 10 ≤ 29 ∧ 29 < 30)) ∧
    (⟨0, 0, 10, 10⟩ : Rect).intersect ⟨5, 5, 10, 10⟩ =
      Rect.intersectExact ⟨0, 0, 10, 10⟩ ⟨5, 5, 10, 10⟩ :=
  ⟨(C4_rect_arith_amended.1 ⟨0, 0, 20, 20⟩ 5 (by decide) (by decide)).1,
   (by simpa using C4_rect_arith_amended.2.2.1 ⟨10, 10, 20, 20⟩ 29 29
          (by decide) (by decide)),
   (C4_rect_arith_amended.2.2.2 ⟨0, 0, 10, 10⟩ ⟨5, 5, 10, 10⟩
     (by decide) (by decide) (by decide) (by decide)).1⟩

/-- C5 counterexample: on a frame whose computed dirty-region list is
empty (previous buffer equal to the current one, past the first render),
`Renderer::render` returns before writing anything and the backend is not
flushed at all, contradicting the claim that every frame flushes exactly
once. -/
theorem C5_empty_diff_no_flush :
    compute_diff (Buffer.new 2 2) (Buffer.new 2 2) = [] ∧
    countFlush
      (Renderer.render ⟨false⟩ (some (Buffer.new 2 2)) (Buffer.new 2 2)).1
      = 0 := by
  refine ⟨by decide, by decide⟩

/-- Folding with a step that never adds a `flush` leaves the flush count
of the accumulator unchanged. -/
theorem countFlush_foldl {α : Type} (f : List BackendOp → α → List BackendOp)
    (hf : ∀ ops a, countFlush (f ops a) = countFlush ops) :
    ∀ (l : List α) (init : List BackendOp),
      countFlush (l.foldl f init) = countFlush init := by
  intro l
  induction l with
  | nil => intro init; rfl
  | cons a l ih => intro init; rw [List.foldl_cons, ih, hf]

/-- `countFlush` is additive over append. -/
theorem countFlush_append (a b : List BackendOp) :
    countFlush (a ++ b) = countFlush a + countFlush b := by
  simp [countFlush, List.countP_append]

/-- `render_region` issues only cursor moves and writes: no flush. -/
theorem countFlush_renderRegion (buffer : Buffer) (region : DirtyRegion) :
    countFlush (renderRegion buffer region) = 0 := by
  unfold renderRegion
  rw [countFlush_foldl]
  · rfl
  · intro ops y
    rw [countFlush_append]
    simp [countFlush, List.countP_cons]

/-- The region walk of `render` accumulates no flush. -/
theorem countFlush_regions_foldl (buffer : Buffer)
    (dirty : List DirtyRegion) :
    countFlush (dirty.foldl
      (fun ops region => ops ++ renderRegion buffer region) []) = 0 := by
  rw [countFlush_foldl]
  · rfl
  · intro ops region
    rw [countFlush_append, countFlush_renderRegion, Nat.add_zero]

/-- C5 (amended): `Renderer::render` flushes at most once per call; it
flushes exactly once — as the last backend operation, after all dirty
regions — precisely on frames whose region list is nonempty (in
particular on the first render and when there is no previous buffer),
and it issues no operations at all, in particular no flush, exactly when
the computed dirty list is empty. -/
theorem C5_flush_iff_regions (r : Renderer) (prev : Option Buffer)
    (buffer : Buffer) :
    countFlush (r.render prev buffer).1 ≤ 1 ∧
    ((r.render prev buffer).1 ≠ [] →
      countFlush (r.render prev buffer).1 = 1 ∧
      (r.render prev buffer).1.getLast? = some BackendOp.flush) ∧
    ((r.render prev buffer).1 = [] ↔
      r.first_render = false ∧
        ∃ p, prev = some p ∧ compute_diff p buffer = []) := by
  obtain ⟨fr⟩ := r
  have hemit : ∀ dirty : List DirtyRegion,
      countFlush (dirty.foldl
        (fun ops region => ops ++ renderRegion buffer region) []
          ++ [BackendOp.flush]) = 1 := by
    intro dirty
    rw [countFlush_append, countFlush_regions_foldl]
    rfl
  have hlast : ∀ dirty : List DirtyRegion,
      (dirty.foldl (fun ops region => ops ++ renderRegion buffer region) []
          ++ [BackendOp.flush]).getLast? = some BackendOp.flush := by
    intro dirty
    exact List.getLast?_concat _
  have hne : ∀ dirty : List DirtyRegion,
      (dirty.foldl (fun ops region => ops ++ renderRegion buffer region) []
          ++ [BackendOp.flush]) ≠ [] := by
    intro dirty h
    exact absurd (congrArg List.getLast? h) (by rw [hlast]; exact (by simp))
  cases fr with
  | true =>
    simp only [Renderer.render, List.isEmpty_cons, if_false, Bool.false_eq_true]
    refine ⟨by rw [hemit], fun _ => ⟨hemit _, hlast _⟩, ?_⟩
    constructor
    · intro h; exact absurd h (hne _)
    · rintro ⟨h, -⟩; cases h
  | false =>
    cases prev with
    | none =>
      simp only [Renderer.render, List.isEmpty_cons, if_false,
        Bool.false_eq_true]
      refine ⟨by rw [hemit], fun _ => ⟨hemit _, hlast _⟩, ?_⟩
      constructor
      · intro h; exact absurd h (hne _)
      · rintro ⟨-, p, hp, -⟩; cases hp
    | some p =>
      simp only [Renderer.render]
      by_cases hd : compute_diff p buffer = []
      · have hie : (compute_diff p buffer).isEmpty = true := by
          simp [List.isEmpty_iff, hd]
        simp only [hie, if_true]
        exact ⟨Nat.zero_le 1, fun h => absurd rfl h,
          by simp [hd]⟩
      · have hie : (compute_diff p buffer).isEmpty = false := by
          simp [List.isEmpty_iff, hd]
        simp only [hie, Bool.false_eq_true, if_false]
        refine ⟨by rw [hemit], fun _ => ⟨hemit _, hlast _⟩, ?_⟩
        constructor
        · intro h; exact absurd h (hne _)
        · rintro ⟨-, q, hq, hq2⟩
          cases hq
          exact (hd hq2).elim

/-- C5 amended witness: on a first render of a 2×2 buffer the emitted
operations end in exactly one flush. -/
theorem C5_flush_iff_regions_witness :
    countFlush (Renderer.render ⟨true⟩ none (Buffer.new 2 2)).1 = 1 ∧
    (Renderer.render ⟨true⟩ none (Buffer.new 2 2)).1.getLast?
      = some BackendOp.flush :=
  (C5_flush_iff_regions ⟨true⟩ none (Buffer.new 2 2)).2.1 (by decide)

/-- A failing downcast: the stored type id differs from the requested
one. -/
theorem downcastSig_ne {TypeId : Type} [DecidableEq TypeId]
    {I : TypeId → Type} (e : Sigma I) (t : TypeId) (h : e.1 ≠ t) :
    downcastSig e t = none := dif_neg h

/-- A successful downcast returns the stored value transported along the
type-id equality. -/
theorem downcastSig_eq {TypeId : Type} [DecidableEq TypeId]
    {I : TypeId → Type} (e : Sigma I) (t : TypeId) (h : e.1 = t) :
    downcastSig e t = some (h ▸ e.2) := dif_pos h

/-- C8: `Store::get_or_create` on a key bound to a different element type
panics — embedded as `Except.error` — with the message
`Store key '<key>' exists but has wrong type`, which names the key, and
produces no modified store (so the key is never silently rebound); on a
matching element type it returns the existing signal (its current value,
not the supplied default) and leaves the store unchanged. -/
theorem C8_get_or_create_contract {TypeId : Type} [DecidableEq TypeId]
    {I : TypeId → Type} (m : List (String × Sigma I)) (key : String)
    (t t' : TypeId) (v : I t') (d : I t)
    (hbound : storeLookup m key = some ⟨t', v⟩) :
    (t' ≠ t → Store.get_or_create m key t d =
      Except.error
        ("Store key '" ++ key ++ "' exists but has wrong type")) ∧
    (∀ h : t' = t, Store.get_or_create m key t d =
      Except.ok (h ▸ v, m)) := by
  constructor
  · intro hne
    simp only [Store.get_or_create, hbound,
      downcastSig_ne (⟨t', v⟩ : Sigma I) t hne]
  · intro h
    subst h
    simp only [Store.get_or_create, hbound,
      downcastSig_eq (⟨t', v⟩ : Sigma I) t' rfl]

/-- C8 witness: a store binding `"k"` to a `true`-typed signal holding 5
(over the two-point type-id universe `Bool` interpreted as `Nat`). -/
theorem C8_get_or_create_contract_witness :
    Store.get_or_create (I := fun _ : Bool => Nat) [("k", ⟨true, 5⟩)] "k"
        false 7 =
      Except.error ("Store key '" ++ "k" ++ "' exists but has wrong type") ∧
    Store.get_or_create (I := fun _ : Bool => Nat) [("k", ⟨true, 5⟩)] "k"
        true 7 =
      Except.ok (5, [("k", ⟨true, 5⟩)]) :=
  ⟨(C8_get_or_create_contract (I := fun _ : Bool => Nat)
      [("k", ⟨true, 5⟩)] "k" false true 5 7 rfl).1 (by decide),
   (C8_get_or_create_contract (I := fun _ : Bool => Nat)
      [("k", ⟨true, 5⟩)] "k" true true 5 7 rfl).2 rfl⟩

/-- C9: `Store::get` never panics on a type mismatch — a key bound to a
different element type yields `none`, the same result as an absent key;
`get` takes the store through a shared read lock and returns only the
optional signal, so the store's contents are unchanged (in the embedding,
`Store.get` produces no store at all). -/
theorem C9_store_get_total {TypeId : Type} [DecidableEq TypeId]
    {I : TypeId → Type} (m : List (String × Sigma I)) (key : String)
    (t : TypeId) :
    (∀ (t' : TypeId) (v : I t'), storeLookup m key = some ⟨t', v⟩ →
      t' ≠ t → Store.get m key t = none) ∧
    (storeLookup m key = none → Store.get m key t = none) := by
  constructor
  · intro t' v hb hne
    unfold Store.get
    rw [hb]
    show downcastSig (⟨t', v⟩ : Sigma I) t = none
    unfold downcastSig
    rw [dif_neg hne]
  · intro hb
    unfold Store.get
    rw [hb]
    rfl

/-- C9 witness: mismatch and absence both yield `none`. -/
theorem C9_store_get_total_witness :
    Store.get (I := fun _ : Bool => Nat) [("k", ⟨true, 5⟩)] "k" false
      = none ∧
    Store.get (I := fun _ : Bool => Nat) [] "k" false = none :=
  ⟨(C9_store_get_total [("k", ⟨true, 5⟩)] "k" false).1 true 5 rfl
     (by decide),
   (C9_store_get_total [] "k" false).2 rfl⟩

/-- C10: every coordinate `render_region` passes to `Buffer::get` — rows
clamped to the buffer height, columns clamped to the buffer width — is
strictly in bounds, so on a well-formed buffer `get` returns a cell (the
flat index stays inside the storage); and `Buffer::get` itself returns
`none` for any out-of-bounds coordinate. This holds for arbitrary dirty
regions, including ones whose edges overflow `u16`. -/
theorem C10_region_reads_in_bounds (buffer : Buffer)
    (region : DirtyRegion) :
    (∀ p ∈ regionReads buffer region,
      p.1 < buffer.width ∧ p.2 < buffer.height ∧
      (buffer.wf → (buffer.get p.1 p.2).isSome = true)) ∧
    (∀ x y, buffer.width ≤ x ∨ buffer.height ≤ y →
      buffer.get x y = none) := by
  constructor
  · rintro ⟨x, y⟩ hp
    unfold regionReads at hp
    simp only [List.mem_flatten, List.mem_map] at hp
    obtain ⟨l, ⟨yy, hyy, rfl⟩, hx⟩ := hp
    simp only [List.mem_map] at hx
    obtain ⟨xx, hxx, heq⟩ := hx
    obtain ⟨hx1, hy1⟩ := Prod.mk.injEq .. ▸ heq
    subst hx1
    subst hy1
    rw [List.mem_range'_1] at hyy hxx
    have hym : min (wadd16 region.rect.y region.rect.height) buffer.height
        ≤ buffer.height := Nat.min_le_right _ _
    have hxm : min (wadd16 region.rect.x region.rect.width) buffer.width
        ≤ buffer.width := Nat.min_le_right _ _
    have hxlt : xx < buffer.width := by omega
    have hylt : yy < buffer.height := by omega
    refine ⟨hxlt, hylt, fun hwf => ?_⟩
    unfold Buffer.get
    rw [if_neg (by omega)]
    have hidx : yy * buffer.width + xx < buffer.cells.length := by
      rw [hwf]
      calc yy * buffer.width + xx
          < yy * buffer.width + buffer.width := Nat.add_lt_add_left hxlt _
        _ = (yy + 1) * buffer.width := by ring
        _ ≤ buffer.height * buffer.width :=
            Nat.mul_le_mul_right _ (Nat.succ_le_of_lt hylt)
        _ = buffer.width * buffer.height := Nat.mul_comm _ _
    rw [List.get?_eq_get hidx]
    rfl
  · intro x y h
    unfold Buffer.get
    rw [if_pos h]

/-- C10 witness: a region spilling past a 3×2 buffer on both axes still
reads only in-bounds cells. -/
theorem C10_region_reads_in_bounds_witness :
    ((Buffer.new 3 2).get 1 0).isSome = true ∧
    (Buffer.new 3 2).get 5 0 = none :=
  ⟨((C10_region_reads_in_bounds (Buffer.new 3 2) ⟨⟨1, 0, 5, 9⟩⟩).1 (1, 0)
      (by decide)).2.2 (by unfold Buffer.wf; decide),
   (C10_region_reads_in_bounds (Buffer.new 3 2) ⟨⟨1, 0, 5, 9⟩⟩).2 5 0
     (by decide)⟩

/-- The `retain` walk keeps exactly the alive entries and invokes exactly
their ids, in order. -/
theorem notifyGo_eq (l : List (Nat × Bool)) :
    notifyGo l =
      (l.filter (fun p => p.2), (l.filter (fun p => p.2)).map Prod.fst) := by
  induction l with
  | nil => rfl
  | cons a rest ih =>
    obtain ⟨id, alive⟩ := a
    cases alive <;> simp [notifyGo, ih, List.filter_cons]

/-- With pairwise-distinct subscriber ids, the invoked-id trace contains
`id` once when `(id, alive)` is present, and not at all otherwise. -/
theorem invoked_count (l : List (Nat × Bool))
    (hpw : l.Pairwise (fun a b => a.1 ≠ b.1)) (id : Nat) :
    ((l.filter (fun p => p.2)).map Prod.fst).count id
      = if (id, true) ∈ l then 1 else 0 := by
  induction l with
  | nil => simp
  | cons a rest ih =>
    obtain ⟨hns, hpw'⟩ := List.pairwise_cons.mp hpw
    obtain ⟨aid, alive⟩ := a
    have htail := ih hpw'
    by_cases hmem : (id, true) ∈ rest
    · have hne : aid ≠ id := hns (id, true) hmem
      cases alive <;>
        simp [List.filter_cons, List.count_cons, htail, hmem, hne,
          List.mem_cons, Ne.symm hne]
    · by_cases hhd : aid = id
      · subst hhd
        cases alive <;>
          simp [List.filter_cons, List.count_cons, htail, hmem,
            List.mem_cons]
      · cases alive <;>
          simp [List.filter_cons, List.count_cons, htail, hmem, hhd,
            List.mem_cons, Ne.symm hhd]

/-- With pairwise-distinct ids an id cannot be both alive and dead. -/
theorem not_alive_and_dead (l : List (Nat × Bool))
    (hpw : l.Pairwise (fun a b => a.1 ≠ b.1)) (id : Nat)
    (h1 : (id, true) ∈ l) (h2 : (id, false) ∈ l) : False := by
  induction l with
  | nil => cases h1
  | cons a rest ih =>
    obtain ⟨hns, hpw'⟩ := List.pairwise_cons.mp hpw
    rcases List.mem_cons.mp h1 with h1' | h1'
    · rcases List.mem_cons.mp h2 with h2' | h2'
      · rw [← h1'] at h2'; cases h2'
      · exact hns _ h2' (by rw [← h1'])
    · rcases List.mem_cons.mp h2 with h2' | h2'
      · exact hns _ h1' (by rw [← h2'])
      · exact ih hpw' h1' h2'

/-- C6: on every mutation (`set` or `update`) of a signal whose subscriber
ids are pairwise distinct (as `subscribe`'s monotone id counter
guarantees), a subscriber whose subscription handle is still alive at
notification time is invoked exactly once, and one whose subscription was
dropped before the walk is invoked zero times. -/
theorem C6_notify_exactly_once {T : Type} (s : SignalState T) (v : T)
    (f : T → T) (id : Nat)
    (hids : s.subscribers.Pairwise (fun a b => a.1 ≠ b.1)) :
    ((id, true) ∈ s.subscribers →
      (s.set v).2.count id = 1 ∧ (s.update f).2.count id = 1) ∧
    ((id, false) ∈ s.subscribers →
      (s.set v).2.count id = 0 ∧ (s.update f).2.count id = 0) := by
  have hset : (s.set v).2
      = (s.subscribers.filter (fun p => p.2)).map Prod.fst := by
    simp [SignalState.set, notifyGo_eq]
  have hupd : (s.update f).2
      = (s.subscribers.filter (fun p => p.2)).map Prod.fst := by
    simp [SignalState.update, notifyGo_eq]
  constructor
  · intro hmem
    rw [hset, hupd, invoked_count _ hids, if_pos hmem]
    exact ⟨rfl, rfl⟩
  · intro hmem
    have hnot : (id, true) ∉ s.subscribers := fun h =>
      not_alive_and_dead _ hids id h hmem
    rw [hset, hupd, invoked_count _ hids, if_neg hnot]
    exact ⟨rfl, rfl⟩

/-- C6 witness: a signal with one alive and one dropped subscriber. -/
theorem C6_notify_exactly_once_witness :
    ((SignalState.mk 0 0 [(0, true), (1, false)] 2).set 7).2.count 0 = 1 ∧
    ((SignalState.mk 0 0 [(0, true), (1, false)] 2).set 7).2.count 1 = 0 :=
  ⟨((C6_notify_exactly_once ⟨0, 0, [(0, true), (1, false)], 2⟩ 7
      (fun x => x) 0 (by decide)).1 (by decide)).1,
   ((C6_notify_exactly_once ⟨0, 0, [(0, true), (1, false)], 2⟩ 7
      (fun x => x) 1 (by decide)).2 (by decide)).1⟩

/-- C1 counterexample: `bufA` and `bufB` have equal dimensions and differ
in every cell of row 0, yet their rows are a genuine 64-bit FNV-1a
collision of `line_hash`, so `compute_diff` skips the row and returns no
region at all — the differing cell `(0, 0)` is covered by nothing.
Coverage therefore does not survive equal line hashes on unequal rows. -/
theorem C1_collision_misses_change :
    bufA.width = bufB.width ∧ bufA.height = bufB.height ∧
    bufA.get 0 0 ≠ bufB.get 0 0 ∧
    bufA.line 0 ≠ bufB.line 0 ∧
    line_hash (bufA.line 0) = line_hash (bufB.line 0) ∧
    compute_diff bufA bufB = [] ∧
    ∀ r ∈ compute_diff bufA bufB, ¬ coversPt r 0 0 := by
  refine ⟨rfl, rfl, by decide, by decide, by decide, by decide, by decide⟩

/-- C7 counterexample: after `register(1,0,true)`, `register(2,1,true)`,
`register(1,0,false)` the focus is still on id 1 whose entry is no longer
focusable, and the focusable set has size 1; applying `focus_next` once
(that is, |focusable| times) moves the focus to id 2, not back to id 1.
The cycle property fails when the current focus does not rest on a
focusable entry. -/
theorem C7_stale_focus_breaks_cycle :
    fmStale.current = some 1 ∧
    (fmStale.components.filter (fun c => c.focusable)).length = 1 ∧
    (focusNextState^[
        (fmStale.components.filter (fun c => c.focusable)).length]
      fmStale).current = some 2 := by
  refine ⟨by decide, by decide, by decide⟩

/-- Row slices of a well-formed buffer have the buffer's width. -/
theorem Buffer.line_length (b : Buffer) (hwf : b.wf) (y : Nat)
    (hy : y < b.height) : (b.line y).length = b.width := by
  unfold Buffer.line
  rw [if_neg (by omega), List.length_take, List.length_drop, hwf]
  have h2 : (y + 1) * b.width ≤ b.height * b.width :=
    Nat.mul_le_mul_right _ (Nat.succ_le_of_lt hy)
  have h1 : b.width + y * b.width ≤ b.width * b.height := by
    calc b.width + y * b.width = (y + 1) * b.width := by ring
      _ ≤ b.height * b.width := h2
      _ = b.width * b.height := Nat.mul_comm _ _
  exact Nat.min_eq_left (Nat.le_sub_of_add_le h1)

/-- On a well-formed buffer the row slice agrees cellwise with `get`. -/
theorem Buffer.line_get? (b : Buffer) (_hwf : b.wf) (x y : Nat)
    (hx : x < b.width) (hy : y < b.height) :
    (b.line y).get? x = b.get x y := by
  unfold Buffer.line Buffer.get
  rw [if_neg (by omega), if_neg (by omega), List.get?_take hx,
    List.get?_drop]

/-- Cells can only compare unequal through `get` at in-bounds positions
(out of bounds both buffers yield `none`). -/
theorem get_ne_in_bounds (a b : Buffer) (hw : a.width = b.width)
    (hh : a.height = b.height) (x y : Nat)
    (hdiff : a.get x y ≠ b.get x y) : x < a.width ∧ y < a.height := by
  by_cases h1 : x < a.width
  · by_cases h2 : y < a.height
    · exact ⟨h1, h2⟩
    · exfalso
      apply hdiff
      unfold Buffer.get
      rw [if_pos (by omega), if_pos (by omega)]
  · exfalso
    apply hdiff
    unfold Buffer.get
    rw [if_pos (by omega), if_pos (by omega)]

/-- `spansGo` only appends to the accumulated region list. -/
theorem spansGo_append (old new : List Cell) (y width : Nat) :
    ∀ (xs : List Nat) (start : Option Nat) (dirty : List DirtyRegion),
    ∃ tail, spansGo old new y width xs start dirty = dirty ++ tail := by
  intro xs
  induction xs with
  | nil =>
    intro start dirty
    cases start with
    | some s => exact ⟨[⟨⟨s, y, width - s, 1⟩⟩], rfl⟩
    | none => exact ⟨[], (List.append_nil _).symm⟩
  | cons x xs ih =>
    intro start dirty
    by_cases hd : old.get? x ≠ new.get? x
    · simp only [spansGo, if_pos hd]
      exact ih _ _
    · cases start with
      | some s =>
        simp only [spansGo, if_neg hd]
        obtain ⟨t, ht⟩ := ih none (dirty ++ [⟨⟨s, y, x - s, 1⟩⟩])
        exact ⟨[⟨⟨s, y, x - s, 1⟩⟩] ++ t, by rw [ht, List.append_assoc]⟩
      | none =>
        simp only [spansGo, if_neg hd]
        exact ih none dirty

/-- Every region `spansGo` emits is one row tall. -/
theorem spansGo_height (old new : List Cell) (y width : Nat) :
    ∀ (xs : List Nat) (start : Option Nat) (dirty : List DirtyRegion),
    (∀ r ∈ dirty, r.rect.height = 1) →
    ∀ r ∈ spansGo old new y width xs start dirty, r.rect.height = 1 := by
  intro xs
  induction xs with
  | nil =>
    intro start dirty hd r hr
    cases start with
    | some s =>
      rcases List.mem_append.mp hr with h | h
      · exact hd r h
      · rw [List.mem_singleton.mp h]
    | none => exact hd r hr
  | cons x xs ih =>
    intro start dirty hd r hr
    by_cases hdiff : old.get? x ≠ new.get? x
    · simp only [spansGo, if_pos hdiff] at hr
      exact ih _ _ hd r hr
    · cases start with
      | some s =>
        simp only [spansGo, if_neg hdiff] at hr
        refine ih none _ ?_ r hr
        intro r' hr'
        rcases List.mem_append.mp hr' with h | h
        · exact hd r' h
        · rw [List.mem_singleton.mp h]
      | none =>
        simp only [spansGo, if_neg hdiff] at hr
        exact ih none dirty hd r hr

/-- The span scan covers every differing position: starting the scan at
`x0` with a well-formed open-run start, any position `x < width` whose
cells differ is covered by some region of the result. -/
theorem spansGo_covers (old new : List Cell) (y width x : Nat)
    (hx : x < width) (hdx : old.get? x ≠ new.get? x) :
    ∀ (n x0 : Nat), n = width - x0 →
    ∀ (start : Option Nat) (dirty : List DirtyRegion),
    (∀ s, start = some s → s ≤ x0) →
    (x < x0 → (∃ r ∈ dirty, coversPt r x y) ∨
      (∃ s, start = some s ∧ s ≤ x)) →
    ∃ r ∈ spansGo old new y width (List.range' x0 (width - x0)) start dirty,
      coversPt r x y := by
  intro n
  induction n with
  | zero =>
    intro x0 h0 start dirty hwfs H
    rw [← h0, List.range'_zero]
    have hxlt : x < x0 := by omega
    rcases H hxlt with ⟨r, hr, hc⟩ | ⟨s, hs, hsx⟩
    · cases start with
      | some s => exact ⟨r, List.mem_append_left _ hr, hc⟩
      | none => exact ⟨r, hr, hc⟩
    · subst hs
      refine ⟨⟨⟨s, y, width - s, 1⟩⟩, List.mem_append_right _ ?_, ?_⟩
      · exact List.mem_singleton.mpr rfl
      · show s ≤ x ∧ x < s + (width - s) ∧ y ≤ y ∧ y < y + 1
        omega
  | succ n ih =>
    intro x0 h0 start dirty hwfs H
    have hx0 : x0 < width := by omega
    have hn : n = width - (x0 + 1) := by omega
    rw [← h0, List.range'_succ, hn]
    by_cases hd : old.get? x0 ≠ new.get? x0
    · simp only [spansGo, if_pos hd]
      apply ih (x0 + 1) hn (some (start.getD x0)) dirty
      · intro s hs
        injection hs with hs
        cases start with
        | some s0 =>
          rw [Option.getD_some] at hs
          have := hwfs s0 rfl
          omega
        | none =>
          rw [Option.getD_none] at hs
          omega
      · intro _
        rcases Nat.lt_or_ge x x0 with hlt | hge
        · rcases H hlt with hcov | ⟨s, hs, hsx⟩
          · exact Or.inl hcov
          · subst hs
            exact Or.inr ⟨s, by rw [Option.getD_some], hsx⟩
        · have hxeq : x = x0 := by omega
          subst hxeq
          cases start with
          | some s0 => exact Or.inr ⟨s0, rfl, hwfs s0 rfl⟩
          | none => exact Or.inr ⟨x, rfl, Nat.le_refl x⟩
    · have hxne : x ≠ x0 := fun h => hd (h ▸ hdx)
      cases start with
      | some s =>
        simp only [spansGo, if_neg hd]
        apply ih (x0 + 1) hn none (dirty ++ [⟨⟨s, y, x0 - s, 1⟩⟩])
          (fun s h => nomatch h)
        intro hxlt
        have hlt : x < x0 := by omega
        rcases H hlt with ⟨r, hr, hc⟩ | ⟨s', hs', hsx⟩
        · exact Or.inl ⟨r, List.mem_append_left _ hr, hc⟩
        · have hss : s = s' := by injection hs' with h
          refine Or.inl ⟨⟨⟨s, y, x0 - s, 1⟩⟩,
            List.mem_append_right _ (List.mem_singleton.mpr rfl), ?_⟩
          show s ≤ x ∧ x < s + (x0 - s) ∧ y ≤ y ∧ y < y + 1
          have h1 := hwfs s rfl
          omega
      | none =>
        simp only [spansGo, if_neg hd]
        apply ih (x0 + 1) hn none dirty (fun s h => nomatch h)
        intro hxlt
        have hlt : x < x0 := by omega
        rcases H hlt with hcov | ⟨s', hs', _⟩
        · exact Or.inl hcov
        · cases hs'

/-- `find_changed_spans` covers every in-range differing position. -/
theorem find_changed_spans_covers (old new : List Cell) (y x : Nat)
    (hx : x < min old.length new.length)
    (hdx : old.get? x ≠ new.get? x) (dirty : List DirtyRegion) :
    ∃ r ∈ find_changed_spans old new y dirty, coversPt r x y := by
  unfold find_changed_spans
  have h := spansGo_covers old new y (min old.length new.length) x hx hdx
    (min old.length new.length) 0 (by omega) none dirty
    (fun s h => nomatch h) (fun h => absurd h (by omega))
  rw [List.range_eq_range']
  simpa using h

/-- Each row step of `compute_diff` only appends regions. -/
theorem diffStep_append (a b : Buffer) (dirty : List DirtyRegion)
    (y : Nat) :
    ∃ tail, (if line_hash (a.line y) = line_hash (b.line y) then dirty
      else find_changed_spans (a.line y) (b.line y) y dirty)
        = dirty ++ tail := by
  by_cases h : line_hash (a.line y) = line_hash (b.line y)
  · exact ⟨[], by rw [if_pos h, List.append_nil]⟩
  · rw [if_neg h]
    exact spansGo_append _ _ _ _ _ _ _

/-- A fold whose step only appends preserves membership of the seed. -/
theorem foldl_mem_preserve {α : Type}
    (step : List DirtyRegion → α → List DirtyRegion)
    (hstep : ∀ d a, ∃ t, step d a = d ++ t) :
    ∀ (l : List α) (init : List DirtyRegion) (r : DirtyRegion),
    r ∈ init → r ∈ l.foldl step init := by
  intro l
  induction l with
  | nil => intro init r h; exact h
  | cons a l ih =>
    intro init r h
    rw [List.foldl_cons]
    apply ih
    obtain ⟨t, ht⟩ := hstep init a
    rw [ht]
    exact List.mem_append_left _ h

/-- The row walk of `compute_diff` covers any differing in-range position
of a processed (hash-distinct) row. -/
theorem diffRows_covers (a b : Buffer) (x y : Nat)
    (hhash : line_hash (a.line y) ≠ line_hash (b.line y))
    (hx : x < min (a.line y).length (b.line y).length)
    (hdx : (a.line y).get? x ≠ (b.line y).get? x) :
    ∀ (l : List Nat) (init : List DirtyRegion), y ∈ l →
    ∃ r ∈ l.foldl (fun dirty y' =>
        if line_hash (a.line y') = line_hash (b.line y') then dirty
        else find_changed_spans (a.line y') (b.line y') y' dirty) init,
      coversPt r x y := by
  intro l
  induction l with
  | nil => intro init h; cases h
  | cons y' l ih =>
    intro init hmem
    rw [List.foldl_cons]
    rcases List.mem_cons.mp hmem with rfl | hmem'
    · obtain ⟨r, hr, hc⟩ :
          ∃ r ∈ (if line_hash (a.line y) = line_hash (b.line y) then init
            else find_changed_spans (a.line y) (b.line y) y init),
            coversPt r x y := by
        rw [if_neg hhash]
        exact find_changed_spans_covers _ _ _ _ hx hdx init
      exact ⟨r, foldl_mem_preserve _ (diffStep_append a b) l _ r hr, hc⟩
    · exact ih _ hmem'

/-- Every region accumulated by the row walk is one row tall. -/
theorem diffRows_height (a b : Buffer) :
    ∀ (l : List Nat) (init : List DirtyRegion),
    (∀ r ∈ init, r.rect.height = 1) →
    ∀ r ∈ l.foldl (fun dirty y' =>
        if line_hash (a.line y') = line_hash (b.line y') then dirty
        else find_changed_spans (a.line y') (b.line y') y' dirty) init,
      r.rect.height = 1 := by
  intro l
  induction l with
  | nil => intro init hi r hr; exact hi r hr
  | cons y' l ih =>
    intro init hi r hr
    rw [List.foldl_cons] at hr
    refine ih _ ?_ r hr
    by_cases h : line_hash (a.line y') = line_hash (b.line y')
    · rw [if_pos h]; exact hi
    · rw [if_neg h]
      exact spansGo_height _ _ _ _ _ _ _ hi

instance : IsTotal DirtyRegion regionLe :=
  ⟨fun a b => by unfold regionLe; omega⟩

instance : IsTrans DirtyRegion regionLe :=
  ⟨fun a b c hab hbc => by unfold regionLe at *; omega⟩

/-- The merging walk preserves point coverage, for sorted one-row-tall
region lists. -/
theorem mergeGo_covers (x y : Nat) :
    ∀ (rest : List DirtyRegion) (current : DirtyRegion),
    List.Sorted regionLe (current :: rest) →
    current.rect.height = 1 → (∀ r ∈ rest, r.rect.height = 1) →
    (coversPt current x y ∨ ∃ r ∈ rest, coversPt r x y) →
    ∃ r' ∈ mergeGo current rest, coversPt r' x y := by
  intro rest
  induction rest with
  | nil =>
    intro current _ _ _ hcov
    rcases hcov with hc | ⟨r, hr, _⟩
    · exact ⟨current, List.mem_singleton.mpr rfl, hc⟩
    · cases hr
  | cons next rest ih =>
    intro current hsorted hh1 hh2 hcov
    have hpair := List.pairwise_cons.mp hsorted
    have hle : regionLe current next := hpair.1 next (List.mem_cons_self _ _)
    have hsorted' : List.Sorted regionLe (next :: rest) := hpair.2
    have hpair' := List.pairwise_cons.mp hsorted'
    by_cases hcond : current.rect.y = next.rect.y ∧
        next.rect.x ≤ current.rect.x + current.rect.width + 1
    · simp only [mergeGo, if_pos hcond]
      obtain ⟨hcy, hcx⟩ := hcond
      have hxle : current.rect.x ≤ next.rect.x := by
        unfold regionLe at hle
        omega
      have hM1 : next.rect.x + next.rect.width ≤
          max (next.rect.x + next.rect.width)
            (current.rect.x + current.rect.width) := Nat.le_max_left _ _
      have hM2 : current.rect.x + current.rect.width ≤
          max (next.rect.x + next.rect.width)
            (current.rect.x + current.rect.width) := Nat.le_max_right _ _
      refine ih _ ?_ hh1
        (fun r hr => hh2 r (List.mem_cons_of_mem _ hr)) ?_
      · -- sortedness: the merged region keeps current's (y, x) key
        refine List.pairwise_cons.mpr ⟨?_, hpair'.2⟩
        intro r hr
        have hcr := hpair.1 r (List.mem_cons_of_mem _ hr)
        unfold regionLe at hcr ⊢
        exact hcr
      · -- coverage transfers to the merged region
        rcases hcov with hc | hnr
        · refine Or.inl ?_
          unfold coversPt at hc ⊢
          show current.rect.x ≤ x ∧
            x < current.rect.x +
              (max (next.rect.x + next.rect.width)
                (current.rect.x + current.rect.width) - current.rect.x) ∧
            current.rect.y ≤ y ∧ y < current.rect.y + current.rect.height
          omega
        · obtain ⟨r, hr, hc⟩ := hnr
          rcases List.mem_cons.mp hr with rfl | hr'
          · refine Or.inl ?_
            have hrh : r.rect.height = 1 := hh2 r (List.mem_cons_self _ _)
            unfold coversPt at hc ⊢
            show current.rect.x ≤ x ∧
              x < current.rect.x +
                (max (r.rect.x + r.rect.width)
                  (current.rect.x + current.rect.width) - current.rect.x) ∧
              current.rect.y ≤ y ∧ y < current.rect.y + current.rect.height
            omega
          · exact Or.inr ⟨r, hr', hc⟩
    · simp only [mergeGo, if_neg hcond]
      rcases hcov with hc | hnr
      · exact ⟨current, List.mem_cons_self _ _, hc⟩
      · obtain ⟨r, hr, hc⟩ := hnr
        have hnext : coversPt next x y ∨ ∃ r' ∈ rest, coversPt r' x y := by
          rcases List.mem_cons.mp hr with rfl | hr'
          · exact Or.inl hc
          · exact Or.inr ⟨r, hr', hc⟩
        obtain ⟨r', hr', hc'⟩ := ih next hsorted'
          (hh2 next (List.mem_cons_self _ _))
          (fun r hr => hh2 r (List.mem_cons_of_mem _ hr)) hnext
        exact ⟨r', List.mem_cons_of_mem _ hr', hc'⟩

/-- `merge_adjacent_regions` preserves point coverage for one-row-tall
region lists. -/
theorem merge_covers (dirty : List DirtyRegion) (x y : Nat)
    (hh : ∀ r ∈ dirty, r.rect.height = 1)
    (hcov : ∃ r ∈ dirty, coversPt r x y) :
    ∃ r' ∈ merge_adjacent_regions dirty, coversPt r' x y := by
  unfold merge_adjacent_regions
  by_cases hlen : dirty.length ≤ 1
  · rw [if_pos hlen]
    exact hcov
  · rw [if_neg hlen]
    have hperm := List.perm_insertionSort regionLe dirty
    have hsorted := List.sorted_insertionSort regionLe dirty
    obtain ⟨r, hr, hc⟩ := hcov
    have hr' : r ∈ List.insertionSort regionLe dirty := hperm.mem_iff.mpr hr
    rcases hs : List.insertionSort regionLe dirty with _ | ⟨c, rest⟩
    · rw [hs] at hr'
      cases hr'
    · rw [hs] at hr' hsorted
      have hhs : ∀ r'' ∈ c :: rest, r''.rect.height = 1 := by
        intro r'' hm
        exact hh r'' (hperm.mem_iff.mp (hs ▸ hm))
      have hcov' : coversPt c x y ∨ ∃ r'' ∈ rest, coversPt r'' x y := by
        rcases List.mem_cons.mp hr' with rfl | hmem
        · exact Or.inl hc
        · exact Or.inr ⟨r, hmem, hc⟩
      exact mergeGo_covers x y rest c hsorted
        (hhs c (List.mem_cons_self _ _))
        (fun r'' hm => hhs r'' (List.mem_cons_of_mem _ hm)) hcov'

/-- C1 (amended): for buffers of equal dimensions, every cell position at
which the buffers differ and whose row has distinct FNV-1a line hashes is
covered by at least one region of `compute_diff`. (When the two unequal
rows collide in `line_hash`, the row is skipped and coverage fails — see
the counterexample.) -/
theorem C1_diff_covers_unless_collision (a b : Buffer) (x y : Nat)
    (hwa : a.wf) (hwb : b.wf)
    (hw : a.width = b.width) (hh : a.height = b.height)
    (hdiff : a.get x y ≠ b.get x y)
    (hhash : line_hash (a.line y) ≠ line_hash (b.line y)) :
    ∃ r ∈ compute_diff a b, coversPt r x y := by
  obtain ⟨hx, hy⟩ := get_ne_in_bounds a b hw hh x y hdiff
  have hyb : y < b.height := hh ▸ hy
  have hxb : x < b.width := hw ▸ hx
  have hla : (a.line y).length = a.width := Buffer.line_length a hwa y hy
  have hlb : (b.line y).length = b.width := Buffer.line_length b hwb y hyb
  have hga : (a.line y).get? x = a.get x y := Buffer.line_get? a hwa x y hx hy
  have hgb : (b.line y).get? x = b.get x y :=
    Buffer.line_get? b hwb x y hxb hyb
  have hdx : (a.line y).get? x ≠ (b.line y).get? x := by
    rw [hga, hgb]; exact hdiff
  have hxm : x < min (a.line y).length (b.line y).length := by
    rw [hla, hlb, ← hw, Nat.min_self]
    exact hx
  unfold compute_diff
  rw [if_neg (fun hor => hor.elim (fun h1 => h1 hw) (fun h2 => h2 hh))]
  apply merge_covers
  · exact diffRows_height a b (List.range b.height) [] (fun r h => nomatch h)
  · exact diffRows_covers a b x y hhash hxm hdx (List.range b.height) []
      (List.mem_range.mpr hyb)

/-- C1 amended witness: two 1×1 buffers differing at the origin with
distinct line hashes; the diff covers the differing cell. -/
theorem C1_diff_covers_unless_collision_witness :
    ∃ r ∈ compute_diff (Buffer.new 1 1)
      ((Buffer.new 1 1).set 0 0 ⟨65, Style.default⟩), coversPt r 0 0 :=
  C1_diff_covers_unless_collision (Buffer.new 1 1)
    ((Buffer.new 1 1).set 0 0 ⟨65, Style.default⟩) 0 0
    (by unfold Buffer.wf; decide) (by unfold Buffer.wf; decide)
    (by decide) (by decide) (by decide) (by decide)

/-- `focAt` holds exactly at positions holding a focusable entry. -/
theorem focAt_iff (comps : List FocusableComponent) (i : Nat) :
    focAt comps i = true ↔
      ∃ c, comps.get? i = some c ∧ c.focusable = true := by
  unfold focAt
  cases h : comps.get? i with
  | some c =>
    simp only [h]
    constructor
    · intro hf
      exact ⟨c, rfl, hf⟩
    · rintro ⟨c', hc', hf⟩
      injection hc' with hc'
      rw [← hc'] at hf
      exact hf
  | none => simp

/-- Membership in the focusable-position list. -/
theorem mem_focPositions (comps : List FocusableComponent) (p : Nat) :
    p ∈ focPositions comps ↔ p < comps.length ∧ focAt comps p = true := by
  unfold focPositions
  rw [List.mem_filter, List.mem_range]

/-- The focusable positions are strictly increasing. -/
theorem focPositions_sorted (comps : List FocusableComponent) :
    (focPositions comps).Pairwise (· < ·) :=
  (List.pairwise_lt_range comps.length).filter _

/-- There are as many focusable positions as focusable entries. -/
theorem focPositions_length (comps : List FocusableComponent) :
    (focPositions comps).length =
      (comps.filter (fun c => c.focusable)).length := by
  induction comps using List.reverseRecOn with
  | nil => rfl
  | append_singleton l c ih =>
    unfold focPositions at *
    have hlen : (l ++ [c]).length = l.length + 1 := by
      rw [List.length_append, List.length_singleton]
    rw [hlen, List.range_succ, List.filter_append, List.filter_append,
      List.length_append, List.length_append]
    have hsame : List.filter (focAt (l ++ [c])) (List.range l.length)
        = List.filter (focAt l) (List.range l.length) := by
      apply List.filter_congr
      intro i hi
      rw [List.mem_range] at hi
      unfold focAt
      rw [List.get?_eq_getElem?, List.getElem?_append, if_pos hi,
        ← List.get?_eq_getElem?]
    have hlast : focAt (l ++ [c]) l.length = c.focusable := by
      unfold focAt
      rw [List.get?_concat_length]
    rw [hsame, ih]
    congr 1
    simp only [List.filter, hlast]
    cases c.focusable <;> rfl

/-- With pairwise-distinct ids, `position(|c| c.id == id)` finds exactly
the position holding the entry with that id (stated with the running
index accumulator of `findIdx?`). -/
theorem findIdx?_id_unique (cid : Nat) :
    ∀ (l : List FocusableComponent) (i p : Nat) (c : FocusableComponent),
    l.Pairwise (fun a b => a.id ≠ b.id) →
    l.get? p = some c → c.id = cid →
    l.findIdx? (fun c' => c'.id = cid) i = some (i + p) := by
  intro l
  induction l with
  | nil => intro i p c _ hg _; cases hg
  | cons d t ih =>
    intro i p c hpw hg hid
    obtain ⟨hhd, hpw'⟩ := List.pairwise_cons.mp hpw
    rw [List.findIdx?_cons]
    cases p with
    | zero =>
      have hdc : d = c := by
        have : some d = some c := hg
        injection this
      rw [if_pos (by rw [hdc, hid]; exact decide_eq_true rfl)]
      rw [Nat.add_zero]
    | succ k =>
      have hg' : t.get? k = some c := hg
      have hcmem : c ∈ t := by
        obtain ⟨hk, hget⟩ := List.get?_eq_some.mp hg'
        exact List.mem_iff_get.mpr ⟨⟨k, hk⟩, hget⟩
      have hdne : d.id ≠ cid := by
        rw [← hid]
        exact hhd c hcmem
      rw [if_neg (by simpa using hdne)]
      rw [ih (i + 1) k c hpw' hg' hid]
      congr 1
      omega

/-- The wrapping search returns the entry at the least offset whose
probed position is focusable. -/
theorem searchNext_spec (comps : List FocusableComponent) (start : Nat)
    (hex : ∃ o, focAt comps ((start + o) % comps.length) = true) :
    ∀ (k o0 : Nat), k = comps.length - o0 →
    o0 ≤ Nat.find hex → Nat.find hex < comps.length →
    searchNext comps start (List.range' o0 (comps.length - o0)) =
      comps.get? ((start + Nat.find hex) % comps.length) := by
  intro k
  induction k with
  | zero =>
    intro o0 h0 hle hlt
    exact absurd hlt (by omega)
  | succ k ih =>
    intro o0 h0 hle hlt
    have hlen : 0 < comps.length := by omega
    have hk : comps.length - o0 = k + 1 := h0.symm
    rw [hk, List.range'_succ]
    have hidx : (start + o0) % comps.length < comps.length :=
      Nat.mod_lt _ hlen
    obtain ⟨c, hc⟩ : ∃ c, comps.get? ((start + o0) % comps.length)
        = some c := ⟨_, List.get?_eq_get hidx⟩
    rcases Nat.eq_or_lt_of_le hle with heq | hlt0
    · have hQ := Nat.find_spec hex
      have hfoc : c.focusable = true := by
        rw [← heq] at hQ
        unfold focAt at hQ
        rw [hc] at hQ
        exact hQ
      simp only [searchNext, hc, if_pos hfoc]
      rw [← heq, hc]
    · have hQn := Nat.find_min hex hlt0
      have hfoc : c.focusable = false := by
        unfold focAt at hQn
        rw [hc] at hQn
        simpa using hQn
      simp only [searchNext, hc, hfoc]
      rw [if_neg (by simp)]
      have hk' : k = comps.length - (o0 + 1) := by omega
      rw [show List.range' (o0 + 1) k
          = List.range' (o0 + 1) (comps.length - (o0 + 1)) by rw [← hk']]
      exact ih (o0 + 1) hk' (by omega) hlt

/-- One `focus_next` from a focusable current entry advances the focus to
the entry at the cyclically next focusable position. -/
theorem focus_next_step (m : FocusManager)
    (hpw : m.components.Pairwise (fun a b => a.id ≠ b.id))
    (j p : Nat) (c : FocusableComponent)
    (hpF : (focPositions m.components).get? j = some p)
    (hc : m.components.get? p = some c)
    (hcur : m.current = some c.id) :
    ∃ (q : Nat) (c' : FocusableComponent),
      (focPositions m.components).get?
        ((j + 1) % (focPositions m.components).length) = some q ∧
      m.components.get? q = some c' ∧
      m.focus_next = (true, { m with current := some c'.id }) := by
  obtain ⟨hj, hgj⟩ := List.get?_eq_some.mp hpF
  have hpmem : p ∈ focPositions m.components :=
    List.mem_iff_get.mpr ⟨⟨j, hj⟩, hgj⟩
  obtain ⟨hplen, hpfoc⟩ := (mem_focPositions _ _).mp hpmem
  have hlen : 0 < m.components.length := by omega
  have hFl : 0 < (focPositions m.components).length := by omega
  have mono := List.pairwise_iff_get.mp (focPositions_sorted m.components)
  set Fl := (focPositions m.components).length with hFldef
  have hj' : (j + 1) % Fl < Fl := Nat.mod_lt _ hFl
  set q := (focPositions m.components).get ⟨(j + 1) % Fl, hj'⟩ with hqdef
  have hqF : (focPositions m.components).get? ((j + 1) % Fl) = some q :=
    List.get?_eq_get hj'
  have hqmem : q ∈ focPositions m.components :=
    List.mem_iff_get.mpr ⟨⟨(j + 1) % Fl, hj'⟩, rfl⟩
  obtain ⟨hqlen, hqfoc⟩ := (mem_focPositions _ _).mp hqmem
  obtain ⟨c', hc'⟩ : ∃ c', m.components.get? q = some c' :=
    ⟨_, List.get?_eq_get hqlen⟩
  refine ⟨q, c', hqF, hc', ?_⟩
  -- a membership bound used at both wrap reasoning points: every
  -- focusable position indexes into focPositions
  have hposF : ∀ r, r < m.components.length → focAt m.components r = true →
      ∃ k : Fin Fl, (focPositions m.components).get k = r := by
    intro r hr hf
    have : r ∈ focPositions m.components :=
      (mem_focPositions _ _).mpr ⟨hr, hf⟩
    exact List.mem_iff_get.mp this
  -- the least-offset search target exists
  have hex : ∃ o,
      focAt m.components ((p + 1 + o) % m.components.length) = true := by
    by_cases hcase : j + 1 < Fl
    · have hjeq : (j + 1) % Fl = j + 1 := Nat.mod_eq_of_lt hcase
      have hpq : p < q := by
        have h := mono ⟨j, hj⟩ ⟨(j + 1) % Fl, hj'⟩
          (Fin.mk_lt_mk.mpr (by omega))
        rw [hgj, ← hqdef] at h
        exact h
      exact ⟨q - (p + 1),
        by rw [show p + 1 + (q - (p + 1)) = q by omega,
          Nat.mod_eq_of_lt hqlen]; exact hqfoc⟩
    · exact ⟨m.components.length - (p + 1) + q,
        by rw [show p + 1 + (m.components.length - (p + 1) + q)
            = m.components.length + q by omega,
          Nat.add_mod_left, Nat.mod_eq_of_lt hqlen]; exact hqfoc⟩
  -- the search lands exactly on q
  have hkey : Nat.find hex < m.components.length ∧
      (p + 1 + Nat.find hex) % m.components.length = q := by
    by_cases hcase : j + 1 < Fl
    · have hjeq : (j + 1) % Fl = j + 1 := Nat.mod_eq_of_lt hcase
      have hpq : p < q := by
        have h := mono ⟨j, hj⟩ ⟨(j + 1) % Fl, hj'⟩
          (Fin.mk_lt_mk.mpr (by omega))
        rw [hgj, ← hqdef] at h
        exact h
      have hfeq : Nat.find hex = q - (p + 1) := by
        rw [Nat.find_eq_iff]
        constructor
        · rw [show p + 1 + (q - (p + 1)) = q by omega,
            Nat.mod_eq_of_lt hqlen]
          exact hqfoc
        · intro o' ho' hQ
          have hrlt : p + 1 + o' < q := by omega
          have hrlen : p + 1 + o' < m.components.length := by omega
          rw [Nat.mod_eq_of_lt hrlen] at hQ
          obtain ⟨⟨k, hk⟩, hkr⟩ := hposF _ hrlen hQ
          rcases Nat.lt_trichotomy k j with hkj | hkj | hkj
          · have h := mono ⟨k, hk⟩ ⟨j, hj⟩ (Fin.mk_lt_mk.mpr hkj)
            rw [hgj, hkr] at h
            omega
          · subst hkj
            have h2 : (⟨k, hk⟩ : Fin Fl) = ⟨k, hj⟩ := rfl
            rw [h2, hgj] at hkr
            omega
          · rcases Nat.eq_or_lt_of_le (Nat.succ_le_of_lt hkj) with hk1 | hk1
            · have h2 : (⟨k, hk⟩ : Fin Fl) = ⟨(j + 1) % Fl, hj'⟩ :=
                Fin.ext (by show k = (j + 1) % Fl; omega)
              rw [h2, ← hqdef] at hkr
              omega
            · have h := mono ⟨(j + 1) % Fl, hj'⟩ ⟨k, hk⟩
                (Fin.mk_lt_mk.mpr (by omega))
              rw [← hqdef, hkr] at h
              omega
      refine ⟨by omega, ?_⟩
      rw [hfeq, show p + 1 + (q - (p + 1)) = q by omega,
        Nat.mod_eq_of_lt hqlen]
    · have hjlast : j + 1 = Fl := by omega
      have hj0 : (j + 1) % Fl = 0 := by rw [hjlast, Nat.mod_self]
      have hqp : q ≤ p := by
        rcases Nat.eq_or_lt_of_le (Nat.zero_le j) with hj0' | hj0'
        · have h2 : (⟨(j + 1) % Fl, hj'⟩ : Fin Fl) = ⟨j, hj⟩ :=
            Fin.ext (by show (j + 1) % Fl = j; omega)
          rw [hqdef, h2, hgj]
        · have h := mono ⟨(j + 1) % Fl, hj'⟩ ⟨j, hj⟩
            (Fin.mk_lt_mk.mpr (by omega))
          rw [hgj, ← hqdef] at h
          omega
      have hfeq : Nat.find hex = m.components.length - (p + 1) + q := by
        rw [Nat.find_eq_iff]
        constructor
        · rw [show p + 1 + (m.components.length - (p + 1) + q)
              = m.components.length + q by omega,
            Nat.add_mod_left, Nat.mod_eq_of_lt hqlen]
          exact hqfoc
        · intro o' ho' hQ
          by_cases hsplit : p + 1 + o' < m.components.length
          · rw [Nat.mod_eq_of_lt hsplit] at hQ
            obtain ⟨⟨k, hk⟩, hkr⟩ := hposF _ hsplit hQ
            rcases Nat.lt_trichotomy k j with hkj | hkj | hkj
            · have h := mono ⟨k, hk⟩ ⟨j, hj⟩ (Fin.mk_lt_mk.mpr hkj)
              rw [hgj, hkr] at h
              omega
            · subst hkj
              have h2 : (⟨k, hk⟩ : Fin Fl) = ⟨k, hj⟩ := rfl
              rw [h2, hgj] at hkr
              omega
            · omega
          · push_neg at hsplit
            have hwrap : p + 1 + o' - m.components.length < q := by omega
            have hmod : (p + 1 + o') % m.components.length
                = p + 1 + o' - m.components.length := by
              rw [Nat.mod_eq_sub_mod hsplit, Nat.mod_eq_of_lt (by omega)]
            rw [hmod] at hQ
            obtain ⟨⟨k, hk⟩, hkr⟩ := hposF _ (by omega) hQ
            rcases Nat.eq_or_lt_of_le (Nat.zero_le k) with hk0 | hk0
            · have h2 : (⟨k, hk⟩ : Fin Fl) = ⟨(j + 1) % Fl, hj'⟩ :=
                Fin.ext (by show k = (j + 1) % Fl; omega)
              rw [h2, ← hqdef] at hkr
              omega
            · have h := mono ⟨(j + 1) % Fl, hj'⟩ ⟨k, hk⟩
                (Fin.mk_lt_mk.mpr (by omega))
              rw [← hqdef, hkr] at h
              omega
      refine ⟨by omega, ?_⟩
      rw [hfeq, show p + 1 + (m.components.length - (p + 1) + q)
          = m.components.length + q by omega,
        Nat.add_mod_left, Nat.mod_eq_of_lt hqlen]
  obtain ⟨hflt, hq_eq⟩ := hkey
  have hsearch : searchNext m.components (p + 1)
      (List.range m.components.length) = some c' := by
    have hs := searchNext_spec m.components (p + 1) hex
      m.components.length 0 (by omega) (Nat.zero_le _) hflt
    rw [Nat.sub_zero] at hs
    rw [List.range_eq_range', hs, hq_eq, hc']
  have hne : m.components ≠ [] := by
    intro h
    rw [h] at hlen
    simp at hlen
  have hie : m.components.isEmpty = false := by
    cases hcs : m.components with
    | nil => exact absurd hcs hne
    | cons a t => rfl
  unfold FocusManager.focus_next
  rw [hie]
  simp only [Bool.false_eq_true, if_false]
  rw [hcur]
  simp only [Option.some_bind]
  rw [findIdx?_id_unique c.id m.components 0 p c hpw hc rfl]
  simp only [Nat.zero_add]
  rw [hsearch]

/-- Iterating `focus_next` walks the focusable positions cyclically:
after `k` steps from the entry at the `j`-th focusable position, the focus
rests on the entry at the `(j + k) mod |focusable|`-th one. -/
theorem focus_next_iterate (comps : List FocusableComponent)
    (hpw : comps.Pairwise (fun a b => a.id ≠ b.id)) :
    ∀ (k : Nat) (mm : FocusManager), mm.components = comps →
    ∀ (j p : Nat) (c : FocusableComponent),
    (focPositions comps).get? j = some p →
    comps.get? p = some c →
    mm.current = some c.id →
    ∃ (p' : Nat) (c' : FocusableComponent),
      (focPositions comps).get? ((j + k) % (focPositions comps).length)
        = some p' ∧
      comps.get? p' = some c' ∧
      (focusNextState^[k] mm).current = some c'.id := by
  intro k
  induction k with
  | zero =>
    intro mm hmc j p c hpF hc hcur
    obtain ⟨hj, _⟩ := List.get?_eq_some.mp hpF
    refine ⟨p, c, ?_, hc, by simpa using hcur⟩
    rw [Nat.add_zero, Nat.mod_eq_of_lt hj]
    exact hpF
  | succ k ih =>
    intro mm hmc j p c hpF hc hcur
    have hpw' : mm.components.Pairwise (fun a b => a.id ≠ b.id) := by
      rw [hmc]; exact hpw
    have hpF' : (focPositions mm.components).get? j = some p := by
      rw [hmc]; exact hpF
    have hc2 : mm.components.get? p = some c := by
      rw [hmc]; exact hc
    obtain ⟨q, c', hqF, hqc, hstep⟩ :=
      focus_next_step mm hpw' j p c hpF' hc2 hcur
    have hnext : focusNextState mm = { mm with current := some c'.id } := by
      unfold focusNextState
      rw [hstep]
    rw [Function.iterate_succ_apply, hnext]
    have hqF'' : (focPositions comps).get?
        ((j + 1) % (focPositions comps).length) = some q := by
      rw [← hmc]
      exact hqF
    have hqc' : comps.get? q = some c' := by
      rw [← hmc]
      exact hqc
    obtain ⟨p', c'', h1, h2, h4⟩ :=
      ih { mm with current := some c'.id } (by simpa using hmc)
        ((j + 1) % (focPositions comps).length) q c' hqF'' hqc' rfl
    refine ⟨p', c'', ?_, h2, h4⟩
    rw [← h1, Nat.mod_add_mod, show j + 1 + k = j + (k + 1) by omega]

/-- C7 (amended): for a focus manager whose registry has pairwise-distinct
ids and whose current focus rests on a focusable registered entry,
applying `focus_next` exactly |focusable| times returns the current focus
to the same id it started at. (When the current focus rests on an entry
that is registered but no longer focusable — reachable by re-registering
the focused id with `focusable = false` — the cycle property fails; see
the counterexample.) -/
theorem C7_focus_cycle_amended (m : FocusManager)
    (hpw : m.components.Pairwise (fun a b => a.id ≠ b.id))
    (cid : Nat) (hcur : m.current = some cid)
    (hfoc : ∃ c ∈ m.components, c.id = cid ∧ c.focusable = true) :
    (focusNextState^[(m.components.filter (fun c => c.focusable)).length]
      m).current = some cid := by
  obtain ⟨c, hcmem, hcid, hcf⟩ := hfoc
  obtain ⟨⟨p, hp⟩, hgp⟩ := List.mem_iff_get.mp hcmem
  have hcp : m.components.get? p = some c := by
    rw [List.get?_eq_get hp, hgp]
  have hpfoc : focAt m.components p = true := by
    rw [focAt_iff]
    exact ⟨c, hcp, hcf⟩
  have hpmem : p ∈ focPositions m.components :=
    (mem_focPositions _ _).mpr ⟨hp, hpfoc⟩
  obtain ⟨⟨j, hj⟩, hgj⟩ := List.mem_iff_get.mp hpmem
  have hpF : (focPositions m.components).get? j = some p := by
    rw [List.get?_eq_get hj, hgj]
  have hcur' : m.current = some c.id := by
    rw [hcur, hcid]
  obtain ⟨p', c', h1, h2, h4⟩ := focus_next_iterate m.components hpw
    ((m.components.filter (fun c => c.focusable)).length) m rfl j p c
    hpF hcp hcur'
  rw [← focPositions_length, Nat.add_mod_right,
    Nat.mod_eq_of_lt hj, hpF] at h1
  have hp' : p = p' := by injection h1
  subst hp'
  rw [hcp] at h2
  have hc' : c = c' := by injection h2
  subst hc'
  rw [h4, hcid]

/-- C7 amended witness: a manager with three focusable entries, focus on
id 1; three `focus_next` steps return the focus to id 1. -/
theorem C7_focus_cycle_amended_witness :
    (focusNextState^[
      (fmThree.components.filter (fun c => c.focusable)).length]
      fmThree).current = some 1 :=
  C7_focus_cycle_amended fmThree (by decide) 1 (by decide) (by decide)

end Rsdrav


